import Mathlib

/-!
# Verification of `queue.c` (singly linked string queue)

The C program is embedded shallowly over an explicit heap of list cells.

* A pointer to a `list_ele_t` is an `Option Nat`: `none` is `NULL`, `some a` is the
  address `a`.
* The heap maps an address to the cell stored there, `none` for an address that is not
  allocated.
* A C string is represented by the list of its bytes before the terminating NUL.
* `queue_t *q` is an `Option queue_t` (`none` is the `NULL` queue pointer).
* Every operation returns an `Option`: `none` stands for undefined behaviour (a read or
  write through a pointer that is not allocated, a read past the end of an object) or for a
  loop that used up its fuel.
* Data model: LP64, `size_t` is 64 bits wide and `int` is 32 bits wide.
-/

namespace Queue

/-! ## Data model -/

/-- Modelled from the spec: the declaration of `list_ele_t` is in `queue.h`, which is not
part of the sources; a cell holds the owned string `value` and the link `next`, the two
fields that `queue.c` uses. -/
structure list_ele_t where
  value : List Nat
  next : Option Nat
deriving DecidableEq, Repr

/-- Modelled from the spec: the declaration of `queue_t` is in `queue.h`, which is not part
of the sources; the handle holds `head`, `tail` and the count of cells `size`, an integer
whose width is not known and which is not bounded here. -/
structure queue_t where
  head : Option Nat
  tail : Option Nat
  size : Int
deriving DecidableEq, Repr

/-- The heap of list cells. -/
abbrev Heap := Nat → Option list_ele_t

/-- Heap without any allocated cell. -/
def emptyHeap : Heap := fun _ => none

/-- Store the cell `c` at address `a`. -/
def Heap.store (h : Heap) (a : Nat) (c : list_ele_t) : Heap :=
  fun b => if b = a then some c else h b

/-- Release the cell at address `a` (`free`). -/
def Heap.free (h : Heap) (a : Nat) : Heap :=
  fun b => if b = a then none else h b

/-- Write `p->next = n` for the cell at address `a`; `none` when `a` is not allocated. -/
def Heap.setNext (h : Heap) (a : Nat) (n : Option Nat) : Option Heap :=
  match h a with
  | none => none
  | some c => some (h.store a { c with next := n })

/-! ## Machine arithmetic and string primitives -/

/-- Number of values of `size_t`. -/
def SIZE_MOD : Nat := 2 ^ 64

/-- Number of values of `int`. -/
def INT_MOD : Nat := 2 ^ 32

/-- Largest value of `int`. -/
def INT_MAX : Int := 2147483647

/-- Smallest value of `int`. -/
def INT_MIN : Int := -2147483648

/-- Conversion of a `size_t` value to `int`: implementation-defined in C when the value
does not fit, the two's complement wrap-around of the usual compilers here. -/
def int_of_size_t (n : Nat) : Int :=
  if n % INT_MOD < INT_MOD / 2 then ((n % INT_MOD : Nat) : Int)
  else ((n % INT_MOD : Nat) : Int) - (INT_MOD : Int)

/-- Conversion of an `int` value to `size_t`. -/
def size_t_of_int (i : Int) : Nat := (i % (SIZE_MOD : Int)).toNat

/-- Library function `strlen`. -/
def strlen (s : List Nat) : Nat := s.length

/-- Library function `strcmp` on the bytes of two strings: the bytes are compared pair by
pair up to the first pair that differs or to the end of both strings, and the result is the
difference of the two bytes reached. The end of a list stands for the terminating NUL, and
a zero byte inside a list ends the string there. -/
def strcmp : List Nat → List Nat → Int
  | [], [] => 0
  | [], b :: _ => 0 - (b : Int)
  | a :: _, [] => (a : Int)
  | a :: as, b :: bs =>
    if a = b then (if a = 0 then 0 else strcmp as bs) else (a : Int) - (b : Int)

/-- The statement `int len = sizeof(char) * (strlen(s) + 1);` (lines 55 and 91): the
product is computed in `size_t` and converted to `int`. -/
def payload_len (s : List Nat) : Int :=
  int_of_size_t ((1 * (strlen s + 1)) % SIZE_MOD)

/-- The call `memcpy(tmp, s, n)` (lines 62 and 97) out of the string object at `s`, which
is made of the bytes of `s` and the NUL: the string bytes that end up in the destination,
all of `s` when `n` is `strlen s + 1` and the first `n` bytes, without a NUL, when `n` is
smaller; `none` when `n` exceeds the object (a read past its end). A copy without the
NUL is kept as its bytes; the statements that read a stored string back are made for
strings with `strlen s + 1 < 2 ^ 31`, which are copied in full. -/
def memcpy_string (s : List Nat) (n : Nat) : Option (List Nat) :=
  if n ≤ strlen s + 1 then some (s.take n) else none

/-- Library function `memset` on the memory seen from the destination pointer
(offset to byte). -/
def memset (m : Nat → Nat) (c : Nat) (n : Nat) : Nat → Nat :=
  fun i => if i < n then c else m i

/-- Library function `strncpy`: exactly `n` bytes are written, the bytes of `src` first
and NUL bytes once `src` is exhausted. -/
def strncpy (dst : Nat → Nat) (src : List Nat) (n : Nat) : Nat → Nat :=
  fun i => if i < n then src.getD i 0 else dst i

/-! ## The operations of `queue.c` -/

/-- Function `q_new` (lines 13-22); `alloc` tells whether `malloc` returned a block. -/
def q_new (alloc : Bool) : Option queue_t :=
  if alloc then some { head := none, tail := none, size := 0 } else none

/-- Function `q_insert_head` (lines 45-74). `newh` is the result of the `malloc` of the
cell (`none` is `NULL`) and `tmp` tells whether the `malloc` of the string succeeded. On
the failure of the second `malloc` the cell is released again, so the heap is as before. -/
def q_insert_head (h : Heap) (q : Option queue_t) (s : List Nat) (newh : Option Nat)
    (tmp : Bool) : Option (Bool × Heap × Option queue_t) :=
  match q with
  | none => some (false, h, none)
  | some q =>
    match newh with
    | none => some (false, h, some q)
    | some a =>
      let len := payload_len s
      if !tmp then some (false, h, some q)
      else
        match memcpy_string s (size_t_of_int len) with
        | none => none
        | some v =>
          let h1 := h.store a { value := v, next := q.head }
          let q1 := { q with head := some a }
          let q2 := if q1.tail = none then { q1 with tail := q1.head } else q1
          some (true, h1, some { q2 with size := q2.size + 1 })

/-- Function `q_insert_tail` (lines 83-112), with the same allocation parameters as
`q_insert_head`. -/
def q_insert_tail (h : Heap) (q : Option queue_t) (s : List Nat) (newt : Option Nat)
    (tmp : Bool) : Option (Bool × Heap × Option queue_t) :=
  match q with
  | none => some (false, h, none)
  | some q =>
    match newt with
    | none => some (false, h, some q)
    | some a =>
      let len := payload_len s
      if !tmp then some (false, h, some q)
      else
        match memcpy_string s (size_t_of_int len) with
        | none => none
        | some v =>
          let h1 := h.store a { value := v, next := none }
          let q1 := if q.head = none then { q with head := some a } else q
          let h2 :=
            match q1.tail with
            | none => some h1
            | some t => h1.setNext t (some a)
          match h2 with
          | none => none
          | some h2 => some (true, h2, some { q1 with tail := some a, size := q1.size + 1 })

/-- The copy into the caller's buffer in `q_remove_head` (the body of `if (sp)`,
lines 135-138), in `size_t` arithmetic. The memory seen from `sp` has no bound here, so
the bytes written are recorded wherever they fall: with `bufsize = 0` the C code writes
outside the buffer, which is undefined behaviour, and the statements about a call with an
output buffer are made for `1 ≤ bufsize`. -/
def copy_out (sp : Nat → Nat) (value : List Nat) (bufsize : Nat) : Nat → Nat :=
  let len :=
    if bufsize > strlen value then strlen value else (bufsize + SIZE_MOD - 1) % SIZE_MOD
  strncpy (memset sp 0 ((len + 1) % SIZE_MOD)) value len

/-- Function `q_remove_head` (lines 122-145). `sp` is the memory seen from the output
pointer (`none` is `NULL`) and `bufsize` the `size_t` argument. The result follows the C
code for `sp = NULL` and for `1 ≤ bufsize`; for a buffer with `bufsize = 0` it records the
bytes that `copy_out` writes, where the C code has undefined behaviour. -/
def q_remove_head (h : Heap) (q : Option queue_t) (sp : Option (Nat → Nat)) (bufsize : Nat) :
    Option (Bool × Heap × Option queue_t × Option (Nat → Nat)) :=
  match q with
  | none => some (false, h, none, sp)
  | some q =>
    match q.head with
    | none => some (false, h, some q, sp)
    | some t =>
      match h t with
      | none => none
      | some c =>
        let q1 := { q with head := c.next }
        let q2 := { q1 with size := q1.size - 1 }
        let q3 := if q2.size = 0 then { q2 with tail := none } else q2
        let sp1 := sp.map (fun m => copy_out m c.value bufsize)
        some (true, h.free t, some q3, sp1)

/-- The loop of `q_free` (lines 29-34): the cells are released from the head on. -/
def free_loop : Nat → Heap → Option Nat → Option Heap
  | 0, _, _ => none
  | _ + 1, h, none => some h
  | fuel + 1, h, some t =>
    match h t with
    | none => none
    | some c => free_loop fuel (h.free t) c.next

/-- Function `q_free` (lines 25-36); returns the heap of list cells after the call. -/
def q_free (fuel : Nat) (h : Heap) (q : Option queue_t) : Option Heap :=
  match q with
  | none => some h
  | some q => free_loop fuel h q.head

/-- Function `q_size` (lines 151-154): the unchecked read `q->size`, undefined on the
`NULL` queue pointer. The function returns a C `int`: a count that an `int` cannot hold
(below `INT_MIN` or above `INT_MAX`) is not a value the function can report, and the
result is `none` then. (With a field of type `int` the increment `q->size++` that would
reach such a count has overflowed, which is undefined; with a wider field the count does
not fit the result type.) -/
def q_size (q : Option queue_t) : Option Int :=
  match q with
  | none => none
  | some q =>
    if INT_MIN ≤ q.size ∧ q.size ≤ INT_MAX then some q.size else none

/-- The loop `while (curr) { tmp = curr->next; curr->next = prev; prev = curr; curr = tmp; }`
of `q_reverse` (lines 171-176); returns the heap and the final `prev`. -/
def reverse_loop : Nat → Heap → Option Nat → Option Nat → Option (Heap × Option Nat)
  | 0, _, _, _ => none
  | _ + 1, h, prev, none => some (h, prev)
  | fuel + 1, h, prev, some c =>
    match h c with
    | none => none
    | some n => reverse_loop fuel (h.store c { n with next := prev }) (some c) n.next

/-- Function `q_reverse` (lines 163-182). -/
def q_reverse (fuel : Nat) (h : Heap) (q : Option queue_t) : Option (Heap × Option queue_t) :=
  match q with
  | none => some (h, none)
  | some q =>
    if q.size ≤ 1 then some (h, some q)
    else
      match reverse_loop fuel h none q.head with
      | none => none
      | some (h1, _) =>
        match q.head with
        | none => none
        | some hd =>
          match h1.setNext hd none with
          | none => none
          | some h2 => some (h2, some { q with head := q.tail, tail := q.head })

/-- The loop `while (l1 && l1->next) { l2 = l2->next; l1 = l1->next->next; }` of
`mergeSort` (lines 196-199); returns the final `l2`. -/
def split_loop : Nat → Heap → Option Nat → Option Nat → Option (Option Nat)
  | 0, _, _, _ => none
  | _ + 1, _, none, l2 => some l2
  | fuel + 1, h, some a1, l2 =>
    match h a1 with
    | none => none
    | some c1 =>
      match c1.next with
      | none => some l2
      | some b1 =>
        match l2 with
        | none => none
        | some a2 =>
          match h a2, h b1 with
          | some c2, some d1 => split_loop fuel h d1.next c2.next
          | _, _ => none

/-- The assignment `*tmp = p`, where the location `tmp` is either the variable `*head`
(`none`) or the `next` field of the cell at an address. -/
def store_at (h : Heap) (head : Option Nat) (tmp : Option Nat) (p : Option Nat) :
    Option (Heap × Option Nat) :=
  match tmp with
  | none => some (h, p)
  | some a => (h.setNext a p).map (fun h1 => (h1, head))

/-- The merge loop of `mergeSort` followed by `*tmp = l1 ? l1 : l2;` (lines 210-221).
The state is the heap, the variable `*head`, the location `tmp` and the two cursors `l1`
and `l2`. -/
def merge_loop : Nat → Heap → Option Nat → Option Nat → Option Nat → Option Nat →
    Option (Heap × Option Nat)
  | 0, _, _, _, _, _ => none
  | fuel + 1, h, head, tmp, some a1, some a2 =>
    match h a1, h a2 with
    | some c1, some c2 =>
      if strcmp c1.value c2.value < 0 then
        match store_at h head tmp (some a1) with
        | none => none
        | some (h1, head1) =>
          match h1 a1 with
          | none => none
          | some c => merge_loop fuel h1 head1 (some a1) c.next (some a2)
      else
        match store_at h head tmp (some a2) with
        | none => none
        | some (h1, head1) =>
          match h1 a2 with
          | none => none
          | some c => merge_loop fuel h1 head1 (some a2) (some a1) c.next
    | _, _ => none
  | _ + 1, h, head, tmp, some a1, none => store_at h head tmp (some a1)
  | _ + 1, h, head, tmp, none, l2 => store_at h head tmp l2

/-- The split of `mergeSort` (lines 193-202) on a chain of at least two cells that starts
at the cell `hd`: the fast and slow walk, then `l1 = l2->next; l2->next = NULL; l2 = *head;`.
Returns the heap after the cut and the two cursors `l1` and `l2`. -/
def split_halves (fuel : Nat) (h : Heap) (hd : Nat) :
    Option (Heap × Option Nat × Option Nat) :=
  match h hd with
  | none => none
  | some c =>
    match split_loop fuel h c.next (some hd) with
    | some (some m) =>
      match h m with
      | none => none
      | some cm => some (h.store m { cm with next := none }, cm.next, some hd)
    | _ => none

/-- Function `mergeSort` (lines 189-222) on the chain that starts at `*head`; returns the
heap and the new `*head`. After the split `l1` is the second part of the chain and `l2`
its first part. -/
def mergeSort : Nat → Heap → Option Nat → Option (Heap × Option Nat)
  | 0, _, _ => none
  | _ + 1, h, none => some (h, none)
  | fuel + 1, h, some hd =>
    match h hd with
    | none => none
    | some c =>
      match c.next with
      | none => some (h, some hd)
      | some _ =>
        match split_loop fuel h c.next (some hd) with
        | some (some m) =>
          match h m with
          | none => none
          | some cm =>
            let l1 := cm.next
            let h1 := h.store m { cm with next := none }
            match mergeSort fuel h1 (some hd) with
            | none => none
            | some (h2, l2) =>
              match mergeSort fuel h2 l1 with
              | none => none
              | some (h3, l1) => merge_loop fuel h3 none none l1 l2
        | _ => none

/-- The loop `while (q->tail->next) { q->tail = q->tail->next; }` of `q_sort`
(lines 235-237); returns the final `q->tail`. -/
def tail_loop : Nat → Heap → Option Nat → Option (Option Nat)
  | 0, _, _ => none
  | _ + 1, _, none => none
  | fuel + 1, h, some t =>
    match h t with
    | none => none
    | some c =>
      match c.next with
      | none => some (some t)
      | some n => tail_loop fuel h (some n)

/-- Function `q_sort` (lines 229-238). -/
def q_sort (fuel : Nat) (h : Heap) (q : Option queue_t) : Option (Heap × Option queue_t) :=
  match q with
  | none => some (h, none)
  | some q =>
    if q.head = none ∨ q.size ≤ 1 then some (h, some q)
    else
      match mergeSort fuel h q.head with
      | none => none
      | some (h1, hd) =>
        match tail_loop fuel h1 q.tail with
        | none => none
        | some t => some (h1, some { q with head := hd, tail := t })

/-! ## Sequences of calls -/

/-- One call of a sequence of insertions and removals. An insertion carries the string
and the address that `malloc` hands out for the new cell; a removal carries the memory
seen from the output pointer (`none` is `NULL`) and the capacity. -/
inductive q_call where
  | insert_head (s : List Nat) (newh : Nat)
  | insert_tail (s : List Nat) (newt : Nat)
  | remove_head (sp : Option (Nat → Nat)) (bufsize : Nat)

/-- Largest request that `malloc` can grant (`PTRDIFF_MAX` on LP64). -/
def MALLOC_MAX : Nat := 2 ^ 63 - 1

/-- Whether the call is an insertion. -/
def q_call.is_insert : q_call → Bool
  | q_call.insert_head _ _ => true
  | q_call.insert_tail _ _ => true
  | q_call.remove_head _ _ => false

/-- The allocations of a call can succeed in the heap `h`: the address handed out for the
cell is not allocated, and the request for the string is one that `malloc` can grant. -/
def q_call.alloc_ok (h : Heap) : q_call → Prop
  | q_call.insert_head s a => h a = none ∧ size_t_of_int (payload_len s) ≤ MALLOC_MAX
  | q_call.insert_tail s a => h a = none ∧ size_t_of_int (payload_len s) ≤ MALLOC_MAX
  | q_call.remove_head _ _ => True

instance q_call.instDecidableAllocOk (h : Heap) (c : q_call) : Decidable (c.alloc_ok h) := by
  cases c <;> unfold q_call.alloc_ok <;> exact inferInstance

/-- The call is one for which the C code is defined and stores the string in full: an
insertion of a string with `strlen s + 1 < 2 ^ 31`, so that the `int` variable `len` holds
the length of the copy, or a removal without a buffer or with a buffer of at least one
byte. -/
def q_call.well_formed : q_call → Prop
  | q_call.insert_head s _ => strlen s + 1 < 2 ^ 31
  | q_call.insert_tail s _ => strlen s + 1 < 2 ^ 31
  | q_call.remove_head sp n => sp = none ∨ 1 ≤ n

instance q_call.instDecidableWellFormed (c : q_call) : Decidable c.well_formed :=
  match c with
  | q_call.insert_head s _ => inferInstanceAs (Decidable (strlen s + 1 < 2 ^ 31))
  | q_call.insert_tail s _ => inferInstanceAs (Decidable (strlen s + 1 < 2 ^ 31))
  | q_call.remove_head none _ => isTrue (Or.inl rfl)
  | q_call.remove_head (some _) n =>
    if hn : 1 ≤ n then isTrue (Or.inr hn)
    else isFalse (fun hc => hc.elim (fun he => Option.noConfusion he) hn)

/-- The sequence of `n` calls `q_insert_head(q, "")` whose cells are handed out at the
addresses `a`, `a + 1`, and so on. -/
def many_inserts : Nat → Nat → List q_call
  | _, 0 => []
  | a, n + 1 => q_call.insert_head [] a :: many_inserts (a + 1) n

/-- One call, with its allocations successful: the return value, the heap and the queue
after the call. -/
def run_call (h : Heap) (q : Option queue_t) : q_call → Option (Bool × Heap × Option queue_t)
  | q_call.insert_head s a => q_insert_head h q s (some a) true
  | q_call.insert_tail s a => q_insert_tail h q s (some a) true
  | q_call.remove_head sp n =>
    match q_remove_head h q sp n with
    | none => none
    | some (b, h1, q1, _) => some (b, h1, q1)

/-- State of a run of calls: the heap, the queue, the number of insertions so far and the
number of removals so far that returned true. -/
structure run_state where
  heap : Heap
  queue : Option queue_t
  inserts : Nat
  removes : Nat

/-- A sequence of calls, one after the other, with the counts kept along. -/
def run_calls : List q_call → run_state → Option run_state
  | [], st => some st
  | c :: cs, st =>
    match run_call st.heap st.queue c with
    | none => none
    | some (b, h1, q1) =>
      run_calls cs
        { heap := h1, queue := q1,
          inserts := st.inserts + (if c.is_insert then 1 else 0),
          removes := st.removes + (if !c.is_insert && b then 1 else 0) }

/-- The allocations succeed at every call of the sequence, each in the heap in which the
call is made. -/
def allocs_succeed : List q_call → Heap → Option queue_t → Prop
  | [], _, _ => True
  | c :: cs, h, q =>
    c.alloc_ok h ∧
      match run_call h q c with
      | none => True
      | some (_, h1, q1) => allocs_succeed cs h1 q1

instance allocs_succeed.instDecidable :
    (cs : List q_call) → (h : Heap) → (q : Option queue_t) → Decidable (allocs_succeed cs h q)
  | [], _, _ => isTrue trivial
  | c :: cs, h, q =>
    match hr : run_call h q c with
    | none => decidable_of_iff (c.alloc_ok h) (by simp [allocs_succeed, hr])
    | some (_, h1, q1) =>
      haveI := allocs_succeed.instDecidable cs h1 q1
      decidable_of_iff (c.alloc_ok h ∧ allocs_succeed cs h1 q1) (by simp [allocs_succeed, hr])

/-- The count of cells at a point of a run, the insertions so far minus the removals so
far that returned true, is one that a C `int` holds: it is below `2 ^ 31`. -/
def run_state.fits : Option run_state → Prop
  | none => True
  | some st => st.inserts < st.removes + 2 ^ 31

instance run_state.instDecidableFits : (o : Option run_state) → Decidable (run_state.fits o)
  | none => isTrue trivial
  | some st => inferInstanceAs (Decidable (st.inserts < st.removes + 2 ^ 31))

/-- At every point of the sequence of calls on a new queue, the count of cells is one that
a C `int` holds. -/
def sizes_fit (cs : List q_call) (h0 : Heap) : Prop :=
  ∀ j, j ≤ cs.length → run_state.fits (run_calls (cs.take j) ⟨h0, q_new true, 0, 0⟩)

instance sizes_fit.instDecidable (cs : List q_call) (h0 : Heap) :
    Decidable (sizes_fit cs h0) := by
  unfold sizes_fit
  exact inferInstance

/-- Example sequence of calls: `insert_tail("a")`, `insert_tail("b")`, `insert_head("z")`,
then four removals, the first with a buffer of four bytes, the others without a buffer,
the last of them on the empty queue. -/
def ex_calls : List q_call :=
  [q_call.insert_tail [97] 1, q_call.insert_tail [98] 2, q_call.insert_head [122] 3,
    q_call.remove_head (some (fun _ => 0)) 4, q_call.remove_head none 0,
    q_call.remove_head none 0, q_call.remove_head none 0]

/-- A number of calls of `q_remove_head` in a row with the same buffer: the return value
and the buffer after each call, then the heap and the queue after the last call. -/
def remove_n : Nat → Heap → Option queue_t → Option (Nat → Nat) → Nat →
    Option (List (Bool × Option (Nat → Nat)) × Heap × Option queue_t)
  | 0, h, q, _, _ => some ([], h, q)
  | k + 1, h, q, sp, bufsize =>
    match q_remove_head h q sp bufsize with
    | none => none
    | some (b, h1, q1, sp1) =>
      match remove_n k h1 q1 sp1 bufsize with
      | none => none
      | some (rs, h2, q2) => some ((b, sp1) :: rs, h2, q2)

/-! ## Representation predicates -/

/-- Chain predicate: the cells reachable from `p` by `next`, up to `NULL`, are exactly the
cells `xs`, each given by its address and its string, in this order. -/
def IsList (h : Heap) : Option Nat → List (Nat × List Nat) → Prop
  | p, [] => p = none
  | p, x :: xs => p = some x.1 ∧ ∃ n, h x.1 = some { value := x.2, next := n } ∧ IsList h n xs

/-- Executable form of `IsList`. -/
def isListB (h : Heap) : Option Nat → List (Nat × List Nat) → Bool
  | p, [] => p = none
  | p, x :: xs =>
    p = some x.1 &&
      match h x.1 with
      | none => false
      | some c => c.value = x.2 && isListB h c.next xs

/-- `IsList` is decided by `isListB`. -/
instance IsList.instDecidable (h : Heap) (p : Option Nat) (xs : List (Nat × List Nat)) :
    Decidable (IsList h p xs) :=
  decidable_of_iff (isListB h p xs = true) (by
    induction xs generalizing p with
    | nil => simp [isListB, IsList]
    | cons x xs ih =>
      simp only [isListB, IsList, Bool.and_eq_true, decide_eq_true_eq]
      constructor
      · rintro ⟨hp, hm⟩
        refine ⟨hp, ?_⟩
        cases hx : h x.1 with
        | none => simp [hx] at hm
        | some c =>
          simp only [hx, Bool.and_eq_true, decide_eq_true_eq] at hm
          refine ⟨c.next, ?_, (ih _).1 hm.2⟩
          cases c
          simp_all
      · rintro ⟨hp, n, hn, hl⟩
        refine ⟨hp, ?_⟩
        simp [hn, (ih n).2 hl])

/-- The strings of a chain, from its first cell to its last. -/
def payloads (xs : List (Nat × List Nat)) : List (List Nat) := xs.map Prod.snd

/-- The addresses of a chain, from its first cell to its last. -/
def addrs (xs : List (Nat × List Nat)) : List Nat := xs.map Prod.fst

/-- Container invariant of a queue `q` over the heap `h`, with the chain `xs` of cells:
the cells reachable from `head` are `xs` and the chain ends in `NULL`, `size` is their
number, and `tail` is the address of the last of them (`NULL` when there is none). -/
def Inv (h : Heap) (q : queue_t) (xs : List (Nat × List Nat)) : Prop :=
  IsList h q.head xs ∧ q.size = (xs.length : Int) ∧ q.tail = (xs.getLast?).map Prod.fst

instance Inv.instDecidable (h : Heap) (q : queue_t) (xs : List (Nat × List Nat)) :
    Decidable (Inv h q xs) := by
  unfold Inv
  exact inferInstance

/-- Container invariant in the words of the specification: `size` is the number of cells
reachable from `head`; `size` is zero exactly when `head` is `NULL`, exactly when `tail` is
`NULL`; and when `size` is at least one, `tail` is the last cell reachable from `head` and
that cell has no successor. -/
def container_invariant (h : Heap) (q : queue_t) : Prop :=
  ∃ xs : List (Nat × List Nat), IsList h q.head xs ∧ q.size = (xs.length : Int) ∧
    (q.size = 0 ↔ q.head = none) ∧ (q.head = none ↔ q.tail = none) ∧
    (1 ≤ q.size → ∃ t c, q.tail = some t ∧ (addrs xs).getLast? = some t ∧
      h t = some c ∧ c.next = none)

/-- What is found at the location `tmp` is the chain `M`: `tmp` is the variable `*head`
(`none`) or the `next` field of the allocated cell at an address. -/
def ChainAt (h : Heap) (head : Option Nat) (tmp : Option Nat) (M : List (Nat × List Nat)) :
    Prop :=
  match tmp with
  | none => IsList h head M
  | some t => ∃ c, h t = some c ∧ IsList h c.next M

/-- Order of the strings: `a` is not above `b` under `strcmp`. -/
def str_le (a b : List Nat) : Prop := strcmp a b ≤ 0

instance str_le.instDecidable (a b : List Nat) : Decidable (str_le a b) := by
  unfold str_le
  exact inferInstance

/-- Order of the cells by their strings, as a boolean: `strcmp` of the string of `x` and
the string of `y` is not positive. -/
def cell_le (x y : Nat × List Nat) : Bool := decide (strcmp x.2 y.2 ≤ 0)

/-! ## Example data -/

/-- Example heap: the cells of the queue `"b", "a", "c"` at the addresses 1, 2, 3. -/
def ex_heap : Heap := fun a =>
  if a = 1 then some ⟨[98], some 2⟩
  else if a = 2 then some ⟨[97], some 3⟩
  else if a = 3 then some ⟨[99], none⟩
  else none

/-- Example queue handle over `ex_heap`. -/
def ex_queue : queue_t := ⟨some 1, some 3, 3⟩

/-- The cells of the example queue. -/
def ex_cells : List (Nat × List Nat) := [(1, [98]), (2, [97]), (3, [99])]

/-- Example heap: the cells of the queue `"a", "b", "c"` at the addresses 1, 2, 3. -/
def sorted_heap : Heap := fun a =>
  if a = 1 then some ⟨[97], some 2⟩
  else if a = 2 then some ⟨[98], some 3⟩
  else if a = 3 then some ⟨[99], none⟩
  else none

/-- The cells of the queue over `sorted_heap`. -/
def sorted_cells : List (Nat × List Nat) := [(1, [97]), (2, [98]), (3, [99])]

/-- Example heap: the cells of the queue `"a", "b", "a"` at the addresses 1, 2, 3. -/
def tie_heap : Heap := fun a =>
  if a = 1 then some ⟨[97], some 2⟩
  else if a = 2 then some ⟨[98], some 3⟩
  else if a = 3 then some ⟨[97], none⟩
  else none

/-- The cells of the queue over `tie_heap`. -/
def tie_cells : List (Nat × List Nat) := [(1, [97]), (2, [98]), (3, [97])]

/-- Example heap: the chain of the two cells `"a", "a"` at the addresses 1 and 2. -/
def pair_heap : Heap := fun a =>
  if a = 1 then some ⟨[97], some 2⟩
  else if a = 2 then some ⟨[97], none⟩
  else none

/-- A string of `2 ^ 32` bytes `'A'`. -/
def long_string : List Nat := List.replicate 4294967296 65

/-! ## Chains -/

theorem IsList.nil_iff {h : Heap} {p : Option Nat} : IsList h p [] ↔ p = none := Iff.rfl

theorem IsList.cons_iff {h : Heap} {p : Option Nat} {x : Nat × List Nat}
    {xs : List (Nat × List Nat)} :
    IsList h p (x :: xs) ↔
      p = some x.1 ∧ ∃ n, h x.1 = some { value := x.2, next := n } ∧ IsList h n xs := Iff.rfl

/-- A chain is determined by its first pointer. -/
theorem IsList.functional {h : Heap} {p : Option Nat} {xs ys : List (Nat × List Nat)}
    (hx : IsList h p xs) (hy : IsList h p ys) : xs = ys := by
  induction xs generalizing p ys with
  | nil =>
    cases ys with
    | nil => rfl
    | cons y ys =>
      rw [IsList.nil_iff] at hx
      rw [IsList.cons_iff] at hy
      simp [hx] at hy
  | cons x xs ih =>
    cases ys with
    | nil =>
      rw [IsList.nil_iff] at hy
      rw [IsList.cons_iff] at hx
      simp [hy] at hx
    | cons y ys =>
      obtain ⟨hp, n, hn, hl⟩ := hx
      obtain ⟨hp2, n2, hn2, hl2⟩ := hy
      have h1 : x.1 = y.1 := by
        rw [hp] at hp2
        exact Option.some.inj hp2
      rw [← h1, hn] at hn2
      have h2 : x.2 = y.2 := by
        have := Option.some.inj hn2
        exact congrArg list_ele_t.value this
      have h3 : n = n2 := by
        have := Option.some.inj hn2
        exact congrArg list_ele_t.next this
      subst h3
      rw [ih hl hl2, Prod.ext h1 h2]

/-- The chain that starts at a cell of a chain is a suffix of it. -/
theorem IsList.suffix_of_mem {h : Heap} {p : Option Nat} {xs : List (Nat × List Nat)}
    (hx : IsList h p xs) {a : Nat} (ha : a ∈ addrs xs) :
    ∃ ys zs, xs = ys ++ zs ∧ zs ≠ [] ∧ IsList h (some a) zs := by
  induction xs generalizing p with
  | nil => simp [addrs] at ha
  | cons x xs ih =>
    obtain ⟨hp, n, hn, hl⟩ := hx
    by_cases hax : a = x.1
    · subst hax
      exact ⟨[], x :: xs, rfl, by simp, rfl, n, hn, hl⟩
    · have ha2 : a ∈ addrs xs := by
        simp only [addrs, List.map_cons, List.mem_cons] at ha
        rcases ha with ha | ha
        · exact absurd ha hax
        · exact ha
      obtain ⟨ys, zs, he, hz, hl2⟩ := ih hl ha2
      exact ⟨x :: ys, zs, by simp [he], hz, hl2⟩

/-- The first cell of a chain does not occur again in it. -/
theorem IsList.head_not_mem {h : Heap} {p : Option Nat} {x : Nat × List Nat}
    {xs : List (Nat × List Nat)} (hx : IsList h p (x :: xs)) : x.1 ∉ addrs xs := by
  intro ha
  have hx2 := hx
  obtain ⟨hp, n, hn, hl⟩ := hx
  obtain ⟨ys, zs, he, _, hl2⟩ := hl.suffix_of_mem ha
  rw [hp] at hx2
  have := IsList.functional hx2 hl2
  have hlen := congrArg List.length this
  rw [he] at hlen
  simp at hlen
  omega

theorem IsList.tail {h : Heap} {p : Option Nat} {x : Nat × List Nat}
    {xs : List (Nat × List Nat)} (hx : IsList h p (x :: xs)) :
    ∃ n, h x.1 = some { value := x.2, next := n } ∧ IsList h n xs := hx.2

/-- The addresses of a chain are pairwise distinct. -/
theorem IsList.nodup {h : Heap} {p : Option Nat} {xs : List (Nat × List Nat)}
    (hx : IsList h p xs) : (addrs xs).Nodup := by
  induction xs generalizing p with
  | nil => simp [addrs]
  | cons x xs ih =>
    have hnm := hx.head_not_mem
    obtain ⟨_, n, _, hl⟩ := hx
    simp only [addrs, List.map_cons, List.nodup_cons]
    exact ⟨hnm, ih hl⟩

/-- A chain only depends on the cells it contains. -/
theorem IsList.frame {h h2 : Heap} {p : Option Nat} {xs : List (Nat × List Nat)}
    (hx : IsList h p xs) (hf : ∀ a ∈ addrs xs, h2 a = h a) : IsList h2 p xs := by
  induction xs generalizing p with
  | nil => exact hx
  | cons x xs ih =>
    obtain ⟨hp, n, hn, hl⟩ := hx
    refine ⟨hp, n, ?_, ih hl ?_⟩
    · rw [hf x.1 (by simp [addrs])]
      exact hn
    · intro a ha
      exact hf a (by simp only [addrs, List.map_cons, List.mem_cons]; exact Or.inr ha)

theorem Heap.store_same (h : Heap) (a : Nat) (c : list_ele_t) : h.store a c a = some c := by
  simp [Heap.store]

theorem Heap.store_other (h : Heap) {a b : Nat} (c : list_ele_t) (hb : b ≠ a) :
    h.store a c b = h b := by
  simp [Heap.store, hb]

theorem Heap.free_same (h : Heap) (a : Nat) : h.free a a = none := by
  simp [Heap.free]

theorem Heap.free_other (h : Heap) {a b : Nat} (hb : b ≠ a) : h.free a b = h b := by
  simp [Heap.free, hb]

theorem IsList.store_frame {h : Heap} {p : Option Nat} {xs : List (Nat × List Nat)}
    (hx : IsList h p xs) {a : Nat} (c : list_ele_t) (ha : a ∉ addrs xs) :
    IsList (h.store a c) p xs :=
  hx.frame (fun _ hb => Heap.store_other h c (fun e => ha (e ▸ hb)))

theorem IsList.free_frame {h : Heap} {p : Option Nat} {xs : List (Nat × List Nat)}
    (hx : IsList h p xs) {a : Nat} (ha : a ∉ addrs xs) : IsList (h.free a) p xs :=
  hx.frame (fun _ hb => Heap.free_other h (fun e => ha (e ▸ hb)))

/-- Every cell of a chain is allocated. -/
theorem IsList.live {h : Heap} {p : Option Nat} {xs : List (Nat × List Nat)}
    (hx : IsList h p xs) {a : Nat} (ha : a ∈ addrs xs) : ∃ c, h a = some c := by
  obtain ⟨ys, zs, _, hz, hl⟩ := hx.suffix_of_mem ha
  cases zs with
  | nil => exact absurd rfl hz
  | cons z zs =>
    obtain ⟨hp, n, hn, _⟩ := hl
    have : a = z.1 := Option.some.inj hp
    exact ⟨_, this ▸ hn⟩

theorem Inv.tail_none_iff {h : Heap} {q : queue_t} {xs : List (Nat × List Nat)}
    (hi : Inv h q xs) : q.tail = none ↔ xs = [] := by
  obtain ⟨_, _, ht⟩ := hi
  rw [ht]
  cases xs with
  | nil => simp
  | cons x xs => simp [List.getLast?_cons_cons, List.getLast?_eq_getLast]

theorem Inv.head_none_iff {h : Heap} {q : queue_t} {xs : List (Nat × List Nat)}
    (hi : Inv h q xs) : q.head = none ↔ xs = [] := by
  obtain ⟨hl, _, _⟩ := hi
  cases xs with
  | nil => simpa using hl
  | cons x xs => simp [hl.1]

theorem getLast?_cons_of_ne_nil {α : Type} (x : α) {xs : List α} (hx : xs ≠ []) :
    (x :: xs).getLast? = xs.getLast? := by
  cases xs with
  | nil => exact absurd rfl hx
  | cons y ys => simp [List.getLast?_cons_cons]

/-- Effect of `q_remove_head` on a non-empty chain. -/
theorem q_remove_head_cons {h : Heap} {q : queue_t} {x : Nat × List Nat}
    {xs : List (Nat × List Nat)} (hl : IsList h q.head (x :: xs))
    (sp : Option (Nat → Nat)) (bufsize : Nat) :
    ∃ n, h x.1 = some { value := x.2, next := n } ∧ IsList (h.free x.1) n xs ∧
      q_remove_head h (some q) sp bufsize =
        some (true, h.free x.1,
          some (if q.size - 1 = 0 then { head := n, tail := none, size := q.size - 1 }
            else { head := n, tail := q.tail, size := q.size - 1 }),
          sp.map (fun m => copy_out m x.2 bufsize)) := by
  have hnm := hl.head_not_mem
  obtain ⟨hp, n, hn, hl2⟩ := hl
  refine ⟨n, hn, hl2.free_frame hnm, ?_⟩
  simp only [q_remove_head, hp, hn]

/-- What `copy_out` leaves in the buffer when the capacity is at least one. -/
theorem copy_out_spec (m : Nat → Nat) (p : List Nat) (c : Nat) (hc : 1 ≤ c)
    (hc2 : c < SIZE_MOD) :
    (∀ i, i < min (c - 1) p.length → copy_out m p c i = p.getD i 0) ∧
      copy_out m p c (min (c - 1) p.length) = 0 ∧
      (∀ i, min (c - 1) p.length < i → copy_out m p c i = m i) := by
  unfold copy_out strncpy memset strlen
  by_cases hlt : c > p.length
  · have hk : min (c - 1) p.length = p.length := by omega
    have hmod : (p.length + 1) % SIZE_MOD = p.length + 1 := Nat.mod_eq_of_lt (by omega)
    simp only [hlt, if_true, hk, hmod]
    refine ⟨fun i hi => by simp [hi], by simp, fun i hi => ?_⟩
    have h1 : ¬ i < p.length := by omega
    have h2 : ¬ i < p.length + 1 := by omega
    simp [h1, h2]
  · have hk : min (c - 1) p.length = c - 1 := by omega
    have hsub : (c + SIZE_MOD - 1) % SIZE_MOD = c - 1 := by
      have : c + SIZE_MOD - 1 = (c - 1) + SIZE_MOD := by omega
      rw [this, Nat.add_mod_right]
      exact Nat.mod_eq_of_lt (by omega)
    have hmod : (c - 1 + 1) % SIZE_MOD = c := by
      rw [Nat.sub_add_cancel hc]
      exact Nat.mod_eq_of_lt hc2
    simp only [hlt, if_false, hk, hsub, hmod]
    refine ⟨fun i hi => by simp [hi], ?_, fun i hi => ?_⟩
    · have : c - 1 < c := by omega
      simp [this]
    · have h1 : ¬ i < c - 1 := by omega
      have h2 : ¬ i < c := by omega
      simp [h1, h2]

/-- The first `k + 1` bytes of the buffer after `copy_out`, as a list. -/
theorem copy_out_bytes (m : Nat → Nat) (p : List Nat) (c : Nat) (hc : 1 ≤ c)
    (hc2 : c < SIZE_MOD) :
    (List.range (min (c - 1) p.length + 1)).map (copy_out m p c) =
      p.take (min (c - 1) p.length) ++ [0] := by
  obtain ⟨h1, h2, _⟩ := copy_out_spec m p c hc hc2
  rw [List.range_succ, List.map_append, List.map_singleton, h2]
  congr 1
  apply List.ext_getElem
  · simp
  · intro i hi1 hi2
    simp only [List.length_map, List.length_range] at hi1
    have hip : i < p.length := by omega
    simp only [List.getElem_map, List.getElem_range, List.getElem_take]
    rw [h1 i hi1]
    simp [List.getD_eq_getElem?_getD, hip]

/-! ## Removal at the head -/

/-- C6: on a queue that holds the cells `x :: xs`, `q_remove_head` returns true, releases
exactly the first cell, leaves the cells `xs` in their order, lowers `size` by one and sets
`tail` to `NULL` exactly when `xs` is empty; the heap and the queue after the call are the
same whether no output buffer is given (`sp` is `NULL`) or one is given, with whatever
content and with any capacity of at least one byte. -/
theorem q_remove_head_removes_first (h : Heap) (q : queue_t) (x : Nat × List Nat)
    (xs : List (Nat × List Nat)) (hi : Inv h q (x :: xs)) :
    ∃ q1 : queue_t,
      (∀ (sp : Option (Nat → Nat)) (bufsize : Nat), sp = none ∨ 1 ≤ bufsize → ∃ sp1,
        q_remove_head h (some q) sp bufsize = some (true, h.free x.1, some q1, sp1)) ∧
      h.free x.1 x.1 = none ∧
      IsList (h.free x.1) q1.head xs ∧
      Inv (h.free x.1) q1 xs ∧
      q1.size = q.size - 1 ∧
      (q1.tail = none ↔ xs = []) := by
  obtain ⟨hl, hs, ht⟩ := hi
  obtain ⟨n, hn, hl2, hr⟩ := q_remove_head_cons hl none 0
  have hsz : q.size - 1 = (xs.length : Int) := by
    rw [hs]
    simp
  have hinv : Inv (h.free x.1)
      (if q.size - 1 = 0 then { head := n, tail := none, size := q.size - 1 }
        else { head := n, tail := q.tail, size := q.size - 1 }) xs := by
    by_cases hz : q.size - 1 = 0
    · have hxs : xs = [] := by
        rw [hsz] at hz
        exact List.length_eq_zero.mp (by exact_mod_cast hz)
      subst hxs
      simp only [hz, if_true]
      exact ⟨hl2, by simp [hz], by simp⟩
    · have hxs : xs ≠ [] := by
        intro e
        subst e
        simp at hsz
        exact hz hsz
      simp only [hz, if_false]
      exact ⟨hl2, hsz, by rw [ht, getLast?_cons_of_ne_nil x hxs]⟩
  refine ⟨_, fun sp bufsize _ => ?_, Heap.free_same h x.1, hinv.1, hinv, ?_,
    hinv.tail_none_iff⟩
  · obtain ⟨n2, hn2, _, hr2⟩ := q_remove_head_cons hl sp bufsize
    rw [hn] at hn2
    have : n = n2 := congrArg list_ele_t.next (Option.some.inj hn2)
    subst this
    exact ⟨_, hr2⟩
  · split <;> rfl

/-- Witness for C6 on the example queue `"b", "a", "c"`. -/
theorem q_remove_head_removes_first_witness :
    Inv ex_heap ex_queue ((1, [98]) :: [(2, [97]), (3, [99])]) ∧
    ∃ q1 : queue_t,
      (∀ (sp : Option (Nat → Nat)) (bufsize : Nat), sp = none ∨ 1 ≤ bufsize → ∃ sp1,
        q_remove_head ex_heap (some ex_queue) sp bufsize =
          some (true, ex_heap.free 1, some q1, sp1)) ∧
      ex_heap.free 1 1 = none ∧
      IsList (ex_heap.free 1) q1.head [(2, [97]), (3, [99])] ∧
      Inv (ex_heap.free 1) q1 [(2, [97]), (3, [99])] ∧
      q1.size = ex_queue.size - 1 ∧
      (q1.tail = none ↔ [(2, [97]), (3, [99])] = ([] : List (Nat × List Nat))) :=
  ⟨by decide, q_remove_head_removes_first ex_heap ex_queue (1, [98]) [(2, [97]), (3, [99])]
    (by decide)⟩

/-- C7: when the head string is `p` and an output buffer of capacity `c` is given, `c` a
`size_t` value with `1 ≤ c`, `q_remove_head` succeeds and the buffer then holds the first
`min (c - 1) (length p)` bytes of `p` followed at once by a NUL byte: all of `p` when
`c > length p`, a truncated copy otherwise. -/
theorem q_remove_head_copy_out (h : Heap) (q : queue_t) (a : Nat) (p : List Nat)
    (xs : List (Nat × List Nat)) (m : Nat → Nat) (c : Nat)
    (hl : IsList h q.head ((a, p) :: xs)) (hc : 1 ≤ c) (hc2 : c < SIZE_MOD) :
    ∃ h1 q1 m1, q_remove_head h (some q) (some m) c = some (true, h1, q1, some m1) ∧
      (List.range (min (c - 1) p.length + 1)).map m1 = p.take (min (c - 1) p.length) ++ [0] ∧
      (c > p.length → (List.range (p.length + 1)).map m1 = p ++ [0]) := by
  obtain ⟨n, _, _, hr⟩ := q_remove_head_cons hl (some m) c
  refine ⟨_, _, _, hr, copy_out_bytes m p c hc hc2, fun hgt => ?_⟩
  have hk : min (c - 1) p.length = p.length := by omega
  have := copy_out_bytes m p c hc hc2
  rw [hk, List.take_length] at this
  exact this

/-- Witness for C7: the head string `"b"` is copied into a buffer of capacity 5. -/
theorem q_remove_head_copy_out_witness :
    (IsList ex_heap ex_queue.head ((1, [98]) :: [(2, [97]), (3, [99])]) ∧ 1 ≤ 5 ∧
      5 < SIZE_MOD) ∧
    ∃ h1 q1 m1, q_remove_head ex_heap (some ex_queue) (some (fun _ => 7)) 5 =
        some (true, h1, q1, some m1) ∧
      (List.range (min (5 - 1) [98].length + 1)).map m1 =
        [98].take (min (5 - 1) [98].length) ++ [0] ∧
      (5 > [98].length → (List.range ([98].length + 1)).map m1 = [98] ++ [0]) :=
  ⟨⟨by decide, by decide, by decide⟩,
    q_remove_head_copy_out ex_heap ex_queue 1 [98] [(2, [97]), (3, [99])] (fun _ => 7) 5
      (by decide) (by decide) (by decide)⟩

/-- For a capacity of at least one, `q_remove_head` leaves every byte at an offset at or
beyond the capacity as it was. -/
theorem q_remove_head_within_capacity (h : Heap) (q : queue_t) (a : Nat) (p : List Nat)
    (xs : List (Nat × List Nat)) (m : Nat → Nat) (c : Nat)
    (hl : IsList h q.head ((a, p) :: xs)) (hc : 1 ≤ c) (hc2 : c < SIZE_MOD) :
    ∃ h1 q1 m1, q_remove_head h (some q) (some m) c = some (true, h1, q1, some m1) ∧
      ∀ i, c ≤ i → m1 i = m i := by
  obtain ⟨n, _, _, hr⟩ := q_remove_head_cons hl (some m) c
  refine ⟨_, _, _, hr, fun i hi => ?_⟩
  exact (copy_out_spec m p c hc hc2).2.2 i (by omega)

/-- C8, evaluation at capacity zero: on the queue that holds the single string `"A"`,
with a buffer whose bytes are all `255` and `bufsize = 0`, `q_remove_head` succeeds and
overwrites the bytes at the offsets 0 and 1 (with `'A'` and NUL), and every offset below
`2 ^ 64 - 1`. -/
theorem q_remove_head_zero_capacity :
    ∃ h1 q1 m1,
      q_remove_head (emptyHeap.store 1 ⟨[65], none⟩) (some ⟨some 1, some 1, 1⟩)
        (some (fun _ => 255)) 0 = some (true, h1, q1, some m1) ∧
      m1 0 = 65 ∧ m1 1 = 0 ∧ ∀ i, 1 ≤ i → i < SIZE_MOD - 1 → m1 i = 0 := by
  have hl : IsList (emptyHeap.store 1 ⟨[65], none⟩) (queue_t.mk (some 1) (some 1) 1).head
      [(1, [65])] := by decide
  obtain ⟨n, _, _, hr⟩ := q_remove_head_cons hl (some (fun _ => 255)) 0
  refine ⟨_, _, _, hr, ?_, ?_, ?_⟩
  · simp [copy_out, strncpy, memset, strlen, SIZE_MOD]
  · simp [copy_out, strncpy, memset, strlen, SIZE_MOD]
  · intro i hi1 hi2
    have h3 : i < 18446744073709551615 := by
      simpa [SIZE_MOD] using hi2
    have h4 : [65].getD i 0 = 0 := by
      cases i with
      | zero => omega
      | succ j => simp
    simp only [copy_out, strncpy, memset, strlen, SIZE_MOD]
    rw [h4] at *
    simp [h3]

/-- C9: `q_remove_head` returns false exactly when the queue pointer is `NULL` or the queue
is empty, and then the heap, the queue and the output buffer are returned as they were,
for every output pointer `sp` and every capacity. On a queue that holds the cells `xs`, a
call without a buffer or with a buffer of at least one byte (`sp2`, `bufsize2`) returns,
and its return value is false exactly when `xs` is empty. -/
theorem q_remove_head_false_iff (h : Heap) (q : queue_t) (xs : List (Nat × List Nat))
    (sp sp2 : Option (Nat → Nat)) (bufsize bufsize2 : Nat) (hl : IsList h q.head xs)
    (hsp : sp2 = none ∨ 1 ≤ bufsize2) :
    q_remove_head h none sp bufsize = some (false, h, none, sp) ∧
    (xs = [] → q_remove_head h (some q) sp bufsize = some (false, h, some q, sp)) ∧
    ∃ r, q_remove_head h (some q) sp2 bufsize2 = some r ∧
      (r.1 = false ↔ xs = []) ∧
      (xs = [] → r = (false, h, some q, sp2)) := by
  have _ := hsp
  refine ⟨rfl, ?_, ?_⟩
  · intro hx
    subst hx
    have hp : q.head = none := hl
    simp only [q_remove_head, hp]
  · cases xs with
    | nil =>
      have hp : q.head = none := hl
      exact ⟨_, by simp only [q_remove_head, hp], by simp, fun _ => rfl⟩
    | cons x xs =>
      obtain ⟨n, _, _, hr⟩ := q_remove_head_cons hl sp2 bufsize2
      exact ⟨_, hr, by simp, by simp⟩

/-- Witness for C9 on the example queue `"b", "a", "c"`, with a buffer of capacity 4. -/
theorem q_remove_head_false_iff_witness :
    (IsList ex_heap ex_queue.head ex_cells ∧
      ((some (fun _ => 7) : Option (Nat → Nat)) = none ∨ 1 ≤ 4)) ∧
    (q_remove_head ex_heap none (some (fun _ => 7)) 0 =
        some (false, ex_heap, none, some (fun _ => 7)) ∧
      (ex_cells = [] → q_remove_head ex_heap (some ex_queue) (some (fun _ => 7)) 0 =
        some (false, ex_heap, some ex_queue, some (fun _ => 7))) ∧
      ∃ r, q_remove_head ex_heap (some ex_queue) (some (fun _ => 7)) 4 = some r ∧
        (r.1 = false ↔ ex_cells = []) ∧
        (ex_cells = [] → r = (false, ex_heap, some ex_queue, some (fun _ => 7)))) :=
  ⟨⟨by decide, Or.inr (by decide)⟩,
    q_remove_head_false_iff ex_heap ex_queue ex_cells (some (fun _ => 7)) (some (fun _ => 7))
      0 4 (by decide) (Or.inr (by decide))⟩

/-! ## Insertion -/

theorem payload_len_short (s : List Nat) (hs : s.length + 1 < 2 ^ 31) :
    payload_len s = ((s.length + 1 : Nat) : Int) := by
  unfold payload_len int_of_size_t strlen SIZE_MOD INT_MOD
  have h1 : (1 * (s.length + 1)) % 2 ^ 64 = s.length + 1 := by
    rw [Nat.one_mul]
    exact Nat.mod_eq_of_lt (by omega)
  have h2 : (s.length + 1) % 2 ^ 32 = s.length + 1 := Nat.mod_eq_of_lt (by omega)
  rw [h1, h2]
  have h3 : s.length + 1 < 2 ^ 32 / 2 := by omega
  simp only [h3, if_true]

theorem memcpy_short (s : List Nat) (hs : s.length + 1 < 2 ^ 31) :
    memcpy_string s (size_t_of_int (payload_len s)) = some s := by
  rw [payload_len_short s hs]
  unfold size_t_of_int memcpy_string strlen SIZE_MOD
  have h1 : ((s.length + 1 : Nat) : Int) % ((2 ^ 64 : Nat) : Int) = ((s.length + 1 : Nat) : Int) := by
    apply Int.emod_eq_of_lt
    · exact Int.natCast_nonneg _
    · have : s.length + 1 < 2 ^ 64 := by omega
      exact_mod_cast this
  rw [h1, Int.toNat_ofNat]
  simp

/-- A cell that is not allocated is not part of any chain. -/
theorem IsList.not_mem_of_free {h : Heap} {p : Option Nat} {xs : List (Nat × List Nat)}
    (hx : IsList h p xs) {a : Nat} (ha : h a = none) : a ∉ addrs xs := by
  intro hm
  obtain ⟨c, hc⟩ := hx.live hm
  rw [ha] at hc
  exact Option.noConfusion hc

/-- Effect of `q_insert_head` when both allocations succeed and the copy leaves the
string `v` in the new cell. -/
theorem q_insert_head_copy (h : Heap) (q : queue_t) (xs : List (Nat × List Nat))
    (s v : List Nat) (a : Nat) (hl : IsList h q.head xs) (ha : h a = none)
    (hv : memcpy_string s (size_t_of_int (payload_len s)) = some v) :
    ∃ q1 : queue_t,
      q_insert_head h (some q) s (some a) true =
        some (true, h.store a { value := v, next := q.head }, some q1) ∧
      IsList (h.store a { value := v, next := q.head }) q1.head ((a, v) :: xs) ∧
      q1.size = q.size + 1 ∧ q1.head = some a ∧
      q1.tail = (if q.tail = none then some a else q.tail) := by
  have hcell : IsList (h.store a { value := v, next := q.head }) (some a) ((a, v) :: xs) :=
    ⟨rfl, q.head, Heap.store_same h a _, hl.store_frame _ (hl.not_mem_of_free ha)⟩
  by_cases ht : q.tail = none
  · refine ⟨{ head := some a, tail := some a, size := q.size + 1 }, ?_, hcell, rfl, rfl, ?_⟩
    · simp [q_insert_head, hv, ht]
    · simp [ht]
  · refine ⟨{ head := some a, tail := q.tail, size := q.size + 1 }, ?_, hcell, rfl, rfl, ?_⟩
    · simp [q_insert_head, hv, ht]
    · simp [ht]

/-- Invariant after a `q_insert_head` whose allocations succeed. -/
theorem q_insert_head_copy_inv (h : Heap) (q : queue_t) (xs : List (Nat × List Nat))
    (s v : List Nat) (a : Nat) (hi : Inv h q xs) (ha : h a = none)
    (hv : memcpy_string s (size_t_of_int (payload_len s)) = some v) :
    ∃ h1 q1, q_insert_head h (some q) s (some a) true = some (true, h1, some q1) ∧
      Inv h1 q1 ((a, v) :: xs) := by
  obtain ⟨q1, hr, hl1, hs1, _, ht1⟩ := q_insert_head_copy h q xs s v a hi.1 ha hv
  refine ⟨_, q1, hr, hl1, ?_, ?_⟩
  · rw [hs1, hi.2.1]
    simp
  · rw [ht1]
    by_cases hx : xs = []
    · have := hi.tail_none_iff.2 hx
      subst hx
      simp [this]
    · have hne : q.tail ≠ none := fun e => hx (hi.tail_none_iff.1 e)
      simp only [hne, if_false]
      rw [hi.2.2, getLast?_cons_of_ne_nil _ hx]

/-- Effect of a successful `q_insert_head` with a string shorter than `2 ^ 31 - 1`: the
string is stored in full, in front of the former cells. -/
theorem q_insert_head_short (h : Heap) (q : queue_t) (xs : List (Nat × List Nat))
    (s : List Nat) (a : Nat) (hl : IsList h q.head xs) (ha : h a = none)
    (hs : s.length + 1 < 2 ^ 31) :
    ∃ q1 : queue_t,
      q_insert_head h (some q) s (some a) true =
        some (true, h.store a { value := s, next := q.head }, some q1) ∧
      IsList (h.store a { value := s, next := q.head }) q1.head ((a, s) :: xs) ∧
      q1.size = q.size + 1 ∧ q1.head = some a ∧
      q1.tail = (if q.tail = none then some a else q.tail) :=
  q_insert_head_copy h q xs s s a hl ha (memcpy_short s hs)

/-- Invariant after a successful `q_insert_head` with a string shorter than `2 ^ 31 - 1`. -/
theorem q_insert_head_inv (h : Heap) (q : queue_t) (xs : List (Nat × List Nat))
    (s : List Nat) (a : Nat) (hi : Inv h q xs) (ha : h a = none)
    (hs : s.length + 1 < 2 ^ 31) :
    ∃ h1 q1, q_insert_head h (some q) s (some a) true = some (true, h1, some q1) ∧
      Inv h1 q1 ((a, s) :: xs) :=
  q_insert_head_copy_inv h q xs s s a hi ha (memcpy_short s hs)

/-- Linking a chain behind the last cell of another chain. -/
theorem IsList.append_store {h : Heap} {xs ys : List (Nat × List Nat)} {x : Nat × List Nat}
    {p r : Option Nat} (hx : IsList h p (xs ++ [x])) (hy : IsList h r ys)
    (hd : ∀ b ∈ addrs (xs ++ [x]), b ∉ addrs ys) :
    IsList (h.store x.1 { value := x.2, next := r }) p (xs ++ x :: ys) := by
  induction xs generalizing p with
  | nil =>
    obtain ⟨hp, _, _, _⟩ := hx
    refine ⟨hp, r, Heap.store_same h _ _, hy.store_frame _ ?_⟩
    exact hd x.1 (by simp [addrs])
  | cons y xs ih =>
    have hnm := IsList.head_not_mem hx
    obtain ⟨hp, m, hm, hl⟩ := hx
    have hne : y.1 ≠ x.1 := by
      intro e
      apply hnm
      simp [addrs, e]
    refine ⟨hp, m, ?_, ih hl ?_⟩
    · rw [Heap.store_other h _ hne]
      exact hm
    · intro b hb
      exact hd b (by
        simp only [addrs, List.cons_append, List.map_cons, List.mem_cons]
        exact Or.inr hb)

/-- The last cell of a chain has no successor. -/
theorem IsList.last_cell {h : Heap} {xs : List (Nat × List Nat)} {x : Nat × List Nat}
    {p : Option Nat} (hx : IsList h p (xs ++ [x])) :
    h x.1 = some { value := x.2, next := none } := by
  induction xs generalizing p with
  | nil =>
    obtain ⟨_, n, hn, hl⟩ := hx
    have : n = none := hl
    rw [hn, this]
  | cons y xs ih =>
    obtain ⟨_, _, _, hl⟩ := hx
    exact ih hl

/-- Effect of `q_insert_tail` when both allocations succeed and the copy leaves the
string `v` in the new cell. -/
theorem q_insert_tail_copy (h : Heap) (q : queue_t) (xs : List (Nat × List Nat))
    (s v : List Nat) (a : Nat) (hi : Inv h q xs) (ha : h a = none)
    (hv : memcpy_string s (size_t_of_int (payload_len s)) = some v) :
    ∃ h1 q1, q_insert_tail h (some q) s (some a) true = some (true, h1, some q1) ∧
      Inv h1 q1 (xs ++ [(a, v)]) ∧ q1.size = q.size + 1 := by
  have hfresh := hi.1.not_mem_of_free ha
  rcases List.eq_nil_or_concat xs with hx | ⟨ys, x, hx⟩
  · subst hx
    have hh : q.head = none := hi.head_none_iff.2 rfl
    have ht : q.tail = none := hi.tail_none_iff.2 rfl
    refine ⟨h.store a { value := v, next := none },
      { head := some a, tail := some a, size := q.size + 1 }, ?_, ⟨?_, ?_, ?_⟩, rfl⟩
    · simp [q_insert_tail, hv, hh, ht]
    · exact ⟨rfl, none, Heap.store_same h a _, rfl⟩
    · simp [hi.2.1]
    · simp
  · rw [List.concat_eq_append] at hx
    subst hx
    have hh : q.head ≠ none := fun e => by
      have := hi.head_none_iff.1 e
      simp at this
    have ht : q.tail = some x.1 := by
      rw [hi.2.2]
      simp
    have hxa : x.1 ≠ a := by
      intro e
      apply hfresh
      simp [addrs, e]
    have hlast := hi.1.last_cell
    have hl1 : IsList (h.store a { value := v, next := none }) q.head (ys ++ [x]) :=
      hi.1.store_frame _ hfresh
    have hnew : IsList (h.store a { value := v, next := none }) (some a) [(a, v)] :=
      ⟨rfl, none, Heap.store_same h a _, rfl⟩
    have happ := IsList.append_store hl1 hnew (by
      intro b hb hb2
      simp only [addrs, List.map_cons, List.map_nil, List.mem_singleton] at hb2
      subst hb2
      exact hfresh hb)
    refine ⟨(h.store a { value := v, next := none }).store x.1 { value := x.2, next := some a },
      { head := q.head, tail := some a, size := q.size + 1 }, ?_, ⟨?_, ?_, ?_⟩, rfl⟩
    · simp [q_insert_tail, hv, hh, ht, Heap.setNext,
        Heap.store_other h _ hxa, hlast]
    · simpa using happ
    · simp only [hi.2.1, List.length_append, List.length_singleton]
      push_cast
      ring
    · simp

/-- Effect of a successful `q_insert_tail` with a string shorter than `2 ^ 31 - 1`: the
string is stored in full, behind the former cells. -/
theorem q_insert_tail_short (h : Heap) (q : queue_t) (xs : List (Nat × List Nat))
    (s : List Nat) (a : Nat) (hi : Inv h q xs) (ha : h a = none)
    (hs : s.length + 1 < 2 ^ 31) :
    ∃ h1 q1, q_insert_tail h (some q) s (some a) true = some (true, h1, some q1) ∧
      Inv h1 q1 (xs ++ [(a, s)]) ∧ q1.size = q.size + 1 :=
  q_insert_tail_copy h q xs s s a hi ha (memcpy_short s hs)

/-! ### Strings of `2 ^ 32` bytes -/

theorem long_string_length : long_string.length = 4294967296 := by
  unfold long_string
  rw [List.length_replicate]

theorem long_string_take_one : long_string.take 1 = [65] := by
  unfold long_string
  rw [List.take_replicate, Nat.min_eq_left (by norm_num)]
  rfl

theorem payload_len_of_length (s : List Nat) (hs : s.length = 4294967296) :
    payload_len s = 1 := by
  unfold payload_len int_of_size_t strlen SIZE_MOD INT_MOD
  rw [hs]
  norm_num

theorem memcpy_of_length (s : List Nat) (hs : s.length = 4294967296) :
    memcpy_string s (size_t_of_int (payload_len s)) = some (s.take 1) := by
  rw [payload_len_of_length s hs]
  unfold memcpy_string size_t_of_int strlen SIZE_MOD
  rw [hs]
  have h1 : ((1 : Int) % ((2 ^ 64 : Nat) : Int)).toNat = 1 := by norm_num
  rw [h1]
  norm_num

theorem q_insert_head_of_length (s : List Nat) (hs : s.length = 4294967296) :
    q_insert_head emptyHeap (some ⟨none, none, 0⟩) s (some 1) true
      = some (true, emptyHeap.store 1 ⟨s.take 1, none⟩, some ⟨some 1, some 1, 1⟩) := by
  simp [q_insert_head, memcpy_of_length s hs]

theorem q_insert_tail_of_length (s : List Nat) (hs : s.length = 4294967296) :
    q_insert_tail emptyHeap (some ⟨none, none, 0⟩) s (some 1) true
      = some (true, emptyHeap.store 1 ⟨s.take 1, none⟩, some ⟨some 1, some 1, 1⟩) := by
  simp [q_insert_tail, memcpy_of_length s hs]

theorem long_string_ne : ([65] : List Nat) ≠ long_string := by
  intro e
  have := congrArg List.length e
  rw [long_string_length] at this
  norm_num at this

/-- C4, evaluation at a string of `2 ^ 32` bytes `'A'`: on the empty queue, with both
allocations successful, `q_insert_head` returns true and the new head cell holds the
one-byte string `"A"`, not the string that was passed. -/
theorem q_insert_head_long_string :
    q_insert_head emptyHeap (some ⟨none, none, 0⟩) long_string (some 1) true
        = some (true, emptyHeap.store 1 ⟨[65], none⟩, some ⟨some 1, some 1, 1⟩) ∧
      IsList (emptyHeap.store 1 ⟨[65], none⟩) (some 1) [(1, [65])] ∧
      ¬ IsList (emptyHeap.store 1 ⟨[65], none⟩) (some 1) ((1, long_string) :: []) := by
  have hl : IsList (emptyHeap.store 1 ⟨[65], none⟩) (some 1) [(1, [65])] := by decide
  refine ⟨?_, hl, fun hc => ?_⟩
  · rw [q_insert_head_of_length long_string long_string_length, long_string_take_one]
  · have := IsList.functional hl hc
    have h2 : ([65] : List Nat) = long_string := by
      have h3 := List.head_eq_of_cons_eq this
      exact congrArg Prod.snd h3
    exact long_string_ne h2

/-- C5, evaluation at a string of `2 ^ 32` bytes `'A'`: on the empty queue, with both
allocations successful, `q_insert_tail` returns true and the new tail cell holds the
one-byte string `"A"`, not the string that was passed. -/
theorem q_insert_tail_long_string :
    q_insert_tail emptyHeap (some ⟨none, none, 0⟩) long_string (some 1) true
        = some (true, emptyHeap.store 1 ⟨[65], none⟩, some ⟨some 1, some 1, 1⟩) ∧
      IsList (emptyHeap.store 1 ⟨[65], none⟩) (some 1) ([] ++ [(1, [65])]) ∧
      ¬ IsList (emptyHeap.store 1 ⟨[65], none⟩) (some 1) ([] ++ [(1, long_string)]) := by
  have hl : IsList (emptyHeap.store 1 ⟨[65], none⟩) (some 1) [(1, [65])] := by decide
  refine ⟨?_, hl, fun hc => ?_⟩
  · rw [q_insert_tail_of_length long_string long_string_length, long_string_take_one]
  · have := IsList.functional hl hc
    have h2 : ([65] : List Nat) = long_string := by
      have h3 := List.head_eq_of_cons_eq this
      exact congrArg Prod.snd h3
    exact long_string_ne h2

/-! ## Reversal -/

/-- The loop of `q_reverse`: the cells still to visit are pushed, one by one, in front of
the cells already visited. -/
theorem reverse_loop_spec (todo : List (Nat × List Nat)) :
    ∀ (fuel : Nat) (h : Heap) (prev curr : Option Nat) (done : List (Nat × List Nat)),
      IsList h curr todo → IsList h prev done →
      (∀ b ∈ addrs todo, b ∉ addrs done) → todo.length < fuel →
      ∃ h1 p1, reverse_loop fuel h prev curr = some (h1, p1) ∧
        IsList h1 p1 (todo.reverse ++ done) ∧ (∀ b, b ∉ addrs todo → h1 b = h b) := by
  induction todo with
  | nil =>
    intro fuel h prev curr done hc hp _ hf
    have hc2 : curr = none := hc
    subst hc2
    cases fuel with
    | zero => omega
    | succ f => exact ⟨h, prev, rfl, by simpa using hp, fun _ _ => rfl⟩
  | cons x xs ih =>
    intro fuel h prev curr done hc hp hd hf
    have hnm := hc.head_not_mem
    obtain ⟨hcurr, n, hn, hl⟩ := hc
    subst hcurr
    cases fuel with
    | zero => omega
    | succ f =>
      have hxd : x.1 ∉ addrs done := hd x.1 (by simp [addrs])
      have hl1 : IsList (h.store x.1 { value := x.2, next := prev }) n xs :=
        hl.store_frame _ hnm
      have hp1 : IsList (h.store x.1 { value := x.2, next := prev }) (some x.1) (x :: done) :=
        ⟨rfl, prev, Heap.store_same h _ _, hp.store_frame _ hxd⟩
      have hd1 : ∀ b ∈ addrs xs, b ∉ addrs (x :: done) := by
        intro b hb hb2
        simp only [addrs, List.map_cons, List.mem_cons] at hb2
        rcases hb2 with hb2 | hb2
        · exact hnm (hb2 ▸ hb)
        · exact hd b (by simp only [addrs, List.map_cons, List.mem_cons]; exact Or.inr hb) hb2
      obtain ⟨h1, p1, hr, hres, hfr⟩ := ih f _ (some x.1) n (x :: done) hl1 hp1 hd1
        (by simp at hf; omega)
      refine ⟨h1, p1, ?_, ?_, ?_⟩
      · simp only [reverse_loop, hn]
        exact hr
      · simpa using hres
      · intro b hb
        have hb1 : b ∉ addrs xs := fun e => hb (by
          simp only [addrs, List.map_cons, List.mem_cons]; exact Or.inr e)
        have hb2 : b ≠ x.1 := fun e => hb (by simp [addrs, e])
        rw [hfr b hb1, Heap.store_other h _ hb2]

theorem reverse_short {xs : List (Nat × List Nat)}
    (hl : xs.length < 2) : xs.reverse = xs := by
  match xs, hl with
  | [], _ => rfl
  | [_], _ => rfl

/-- Effect of `q_reverse` on a queue that satisfies the invariant. -/
theorem q_reverse_spec (fuel : Nat) (h : Heap) (q : queue_t) (xs : List (Nat × List Nat))
    (hi : Inv h q xs) (hf : xs.length < fuel) :
    ∃ h1 q1, q_reverse fuel h (some q) = some (h1, some q1) ∧ Inv h1 q1 xs.reverse ∧
      q1.size = q.size ∧ (xs.length < 2 → h1 = h ∧ q1 = q) ∧
      (∀ b, b ∉ addrs xs → h1 b = h b) := by
  by_cases hsz : q.size ≤ 1
  · have hlen : xs.length < 2 := by
      have := hi.2.1
      omega
    have hrev : xs.reverse = xs := reverse_short hlen
    refine ⟨h, q, by simp [q_reverse, hsz], ?_, rfl, fun _ => ⟨rfl, rfl⟩, fun _ _ => rfl⟩
    rw [hrev]
    exact hi
  · have hlen : 2 ≤ xs.length := by
      have := hi.2.1
      omega
    obtain ⟨h1, p1, hr, hres, hfr⟩ := reverse_loop_spec xs fuel h none q.head [] hi.1 rfl
      (by simp [addrs]) hf
    rw [List.append_nil] at hres
    match xs, hlen with
    | x :: y :: zs, _ =>
      have hhd : q.head = some x.1 := hi.1.1
      have hrev : (x :: y :: zs).reverse = (y :: zs).reverse ++ [x] := by simp
      have hlast : h1 x.1 = some { value := x.2, next := none } := by
        rw [hrev] at hres
        exact hres.last_cell
      have hsame : h1.store x.1 { value := x.2, next := none } = h1 := by
        funext b
        by_cases hb : b = x.1
        · subst hb
          rw [Heap.store_same, hlast]
        · rw [Heap.store_other h1 _ hb]
      have hp1 : p1 = q.tail := by
        rw [hi.2.2]
        cases hrv : (x :: y :: zs).reverse with
        | nil => simp at hrv
        | cons w ws =>
          rw [hrv] at hres
          rw [hres.1]
          have : (x :: y :: zs).getLast? = some w := by
            rw [List.getLast?_eq_head?_reverse, hrv]
            rfl
          rw [this]
          rfl
      refine ⟨h1, { head := q.tail, tail := q.head, size := q.size }, ?_, ⟨?_, ?_, ?_⟩, rfl,
        fun hc => by simp at hc; omega, hfr⟩
      · rw [hhd] at hr
        simp only [q_reverse, hsz, if_false, hr, hhd, Heap.setNext, hlast, hsame]
      · rw [← hp1]
        exact hres
      · simpa using hi.2.1
      · rw [hhd]
        simp

/-- C3: on a queue that satisfies the container invariant, with the cells `xs`,
`q_reverse` leaves the queue with exactly the cells `xs` in reverse order (so the strings
from head to tail are the former strings in reverse order), with `size` unchanged and the
invariant restored; the heap and the queue are unchanged when the queue holds fewer than
two cells, and nothing happens on the `NULL` queue. -/
theorem q_reverse_reverses (fuel : Nat) (h : Heap) (q : queue_t) (xs : List (Nat × List Nat))
    (hi : Inv h q xs) (hf : xs.length < fuel) :
    q_reverse fuel h none = some (h, none) ∧
    ∃ h1 q1, q_reverse fuel h (some q) = some (h1, some q1) ∧
      IsList h1 q1.head xs.reverse ∧ payloads xs.reverse = (payloads xs).reverse ∧
      q1.size = q.size ∧ Inv h1 q1 xs.reverse ∧ (xs.length < 2 → h1 = h ∧ q1 = q) := by
  refine ⟨rfl, ?_⟩
  obtain ⟨h1, q1, hr, hinv, hs, hshort, _⟩ := q_reverse_spec fuel h q xs hi hf
  exact ⟨h1, q1, hr, hinv.1, by simp [payloads], hs, hinv, hshort⟩

/-- Witness for C3 on the example queue `"b", "a", "c"`. -/
theorem q_reverse_reverses_witness :
    (Inv ex_heap ex_queue ex_cells ∧ ex_cells.length < 4) ∧
    (q_reverse 4 ex_heap none = some (ex_heap, none) ∧
    ∃ h1 q1, q_reverse 4 ex_heap (some ex_queue) = some (h1, some q1) ∧
      IsList h1 q1.head ex_cells.reverse ∧
      payloads ex_cells.reverse = (payloads ex_cells).reverse ∧
      q1.size = ex_queue.size ∧ Inv h1 q1 ex_cells.reverse ∧
      (ex_cells.length < 2 → h1 = ex_heap ∧ q1 = ex_queue)) :=
  ⟨⟨by decide, by decide⟩, q_reverse_reverses 4 ex_heap ex_queue ex_cells (by decide) (by decide)⟩

/-! ## Order of the strings -/

theorem strcmp_neg (a b : List Nat) : strcmp a b = - strcmp b a := by
  induction a generalizing b with
  | nil =>
    cases b with
    | nil => simp [strcmp]
    | cons y ys => simp [strcmp]
  | cons x xs ih =>
    cases b with
    | nil => simp [strcmp]
    | cons y ys =>
      simp only [strcmp]
      by_cases hxy : x = y
      · subst hxy
        by_cases hx0 : x = 0
        · simp [hx0]
        · simp [hx0, ih ys]
      · have hyx : ¬ y = x := fun e => hxy e.symm
        simp only [hxy, hyx, if_false]
        ring

theorem strcmp_trans (a b c : List Nat) (hab : strcmp a b ≤ 0) (hbc : strcmp b c ≤ 0) :
    strcmp a c ≤ 0 := by
  induction a generalizing b c with
  | nil =>
    cases c with
    | nil => simp [strcmp]
    | cons z zs => simp [strcmp]
  | cons x xs ih =>
    cases b with
    | nil =>
      have hx : x = 0 := by
        simp only [strcmp] at hab
        omega
      subst hx
      cases c with
      | nil => simp [strcmp]
      | cons z zs =>
        simp only [strcmp]
        split_ifs <;> omega
    | cons y ys =>
      cases c with
      | nil =>
        have hy : y = 0 := by
          simp only [strcmp] at hbc
          omega
        subst hy
        simp only [strcmp] at hab ⊢
        split_ifs at hab <;> omega
      | cons z zs =>
        simp only [strcmp] at hab hbc ⊢
        by_cases hxy : x = y
        · subst hxy
          by_cases hxz : x = z
          · subst hxz
            by_cases hx0 : x = 0
            · simp [hx0]
            · simp only [hx0, if_true, if_false] at hab hbc ⊢
              exact ih ys zs hab hbc
          · simp only [hxz, if_false] at hbc ⊢
            exact hbc
        · simp only [hxy, if_false] at hab
          by_cases hyz : y = z
          · subst hyz
            simp only [hxy, if_false]
            exact hab
          · simp only [hyz, if_false] at hbc
            have hxz : ¬ x = z := by omega
            simp only [hxz, if_false]
            omega

theorem cell_le_iff (x y : Nat × List Nat) : cell_le x y = true ↔ strcmp x.2 y.2 ≤ 0 := by
  simp [cell_le]

theorem cell_le_trans (a b c : Nat × List Nat) (hab : cell_le a b = true)
    (hbc : cell_le b c = true) : cell_le a c = true := by
  rw [cell_le_iff] at *
  exact strcmp_trans _ _ _ hab hbc

theorem cell_le_total (a b : Nat × List Nat) : (cell_le a b || cell_le b a) = true := by
  rw [Bool.or_eq_true, cell_le_iff, cell_le_iff, strcmp_neg b.2 a.2]
  omega

theorem cell_le_of_not_lt {x y : Nat × List Nat} (hlt : ¬ strcmp y.2 x.2 < 0) :
    cell_le x y = true := by
  rw [cell_le_iff, strcmp_neg]
  omega

theorem not_cell_le_of_lt {x y : Nat × List Nat} (hlt : strcmp y.2 x.2 < 0) :
    cell_le x y = false := by
  rw [← Bool.not_eq_true, cell_le_iff, strcmp_neg]
  omega

theorem mergeSort_cons_cons (x y : Nat × List Nat) (zs : List (Nat × List Nat))
    (le : Nat × List Nat → Nat × List Nat → Bool) :
    List.mergeSort (x :: y :: zs) le =
      List.merge (List.mergeSort ((x :: y :: zs).take ((zs.length + 2 + 1) / 2)) le)
        (List.mergeSort ((x :: y :: zs).drop ((zs.length + 2 + 1) / 2)) le) le := by
  rw [List.mergeSort]
  simp only [List.splitInTwo_fst, List.splitInTwo_snd, List.length_cons]

/-! ## Merge sort on the heap -/

/-- The fast and slow walk: while the fast cursor `l1` advances over `L1` two cells at a
time, the slow cursor `l2` advances over `L2` one cell at a time. -/
theorem split_loop_spec (fuel : Nat) :
    ∀ (h : Heap) (l1 l2 : Option Nat) (L1 L2 : List (Nat × List Nat)),
      IsList h l1 L1 → IsList h l2 L2 → L1.length / 2 < L2.length → L1.length / 2 < fuel →
      ∃ r, split_loop fuel h l1 l2 = some r ∧ IsList h r (L2.drop (L1.length / 2)) := by
  induction fuel with
  | zero => intro h l1 l2 L1 L2 _ _ _ hf; omega
  | succ f ih =>
    intro h l1 l2 L1 L2 h1 h2 hlen hf
    match L1, h1 with
    | [], h1 =>
      have : l1 = none := h1
      subst this
      exact ⟨l2, rfl, by simpa using h2⟩
    | [x], h1 =>
      obtain ⟨hp, n, hn, hl⟩ := h1
      have : n = none := hl
      subst this
      subst hp
      exact ⟨l2, by simp [split_loop, hn], by simpa using h2⟩
    | x :: y :: L1r, h1 =>
      obtain ⟨hp, n, hn, hp2, n2, hn2, hl⟩ := h1
      subst hp
      subst hp2
      match L2, h2 with
      | [], _ => simp at hlen
      | z :: L2r, h2 =>
        obtain ⟨hq, m, hm, hl2⟩ := h2
        subst hq
        have hlen2 : L1r.length / 2 < L2r.length := by
          simp only [List.length_cons] at hlen
          omega
        have hf2 : L1r.length / 2 < f := by
          simp only [List.length_cons] at hf
          omega
        obtain ⟨r, hr, hres⟩ := ih h n2 m L1r L2r hl hl2 hlen2 hf2
        refine ⟨r, ?_, ?_⟩
        · simp only [split_loop, hn, hm, hn2]
          exact hr
        · have : (x :: y :: L1r).length / 2 = L1r.length / 2 + 1 := by
            simp only [List.length_cons]
            omega
          rw [this, List.drop_succ_cons]
          exact hres

/-- Cutting a chain behind the cell `x`. -/
theorem IsList.cut {h : Heap} {ys zs : List (Nat × List Nat)} {x : Nat × List Nat}
    {p : Option Nat} (hx : IsList h p (ys ++ x :: zs)) :
    ∃ n, h x.1 = some { value := x.2, next := n } ∧
      IsList (h.store x.1 { value := x.2, next := none }) p (ys ++ [x]) ∧
      IsList (h.store x.1 { value := x.2, next := none }) n zs := by
  induction ys generalizing p with
  | nil =>
    have hnm := IsList.head_not_mem hx
    obtain ⟨hp, n, hn, hl⟩ := hx
    exact ⟨n, hn, ⟨hp, none, Heap.store_same h _ _, rfl⟩, hl.store_frame _ hnm⟩
  | cons y ys ih =>
    have hnm := IsList.head_not_mem hx
    obtain ⟨hp, m, hm, hl⟩ := hx
    obtain ⟨n, hn, hl1, hl2⟩ := ih hl
    have hne : y.1 ≠ x.1 := by
      intro e
      apply hnm
      simp [addrs, e]
    refine ⟨n, hn, ⟨hp, m, ?_, hl1⟩, hl2⟩
    rw [Heap.store_other h _ hne]
    exact hm

/-- The two parts of a chain have no cell in common. -/
theorem IsList.append_disjoint {h : Heap} {ys zs : List (Nat × List Nat)} {p : Option Nat}
    (hx : IsList h p (ys ++ zs)) : ∀ b ∈ addrs ys, b ∉ addrs zs := by
  have hnd := hx.nodup
  simp only [addrs, List.map_append] at hnd
  intro b hb1 hb2
  exact (List.nodup_append.1 hnd).2.2 hb1 hb2

/-- One round of the merge loop: the cell at `a` is stored at the location `tmp`, and
`tmp` moves to the `next` field of that cell. -/
theorem store_at_step {h : Heap} (head tmp : Option Nat) {a : Nat} {y : Nat × List Nat}
    {n : Option Nat} (hy : y.1 = a) (ha : h a = some { value := y.2, next := n })
    (ht : ∀ t, tmp = some t → (∃ c, h t = some c) ∧ t ≠ a) :
    ∃ h1 head1, store_at h head tmp (some a) = some (h1, head1) ∧
      h1 a = some { value := y.2, next := n } ∧
      (∀ b, tmp ≠ some b → h1 b = h b) ∧
      (∀ t, tmp = some t → Option.map list_ele_t.value (h1 t) = Option.map list_ele_t.value (h t)) ∧
      ∀ (h2 : Heap) (head2 : Option Nat) (M : List (Nat × List Nat)),
        ChainAt h2 head2 (some a) M → head2 = head1 →
        Option.map list_ele_t.value (h2 a) = Option.map list_ele_t.value (h1 a) →
        (∀ t, tmp = some t → h2 t = h1 t) →
        ChainAt h2 head2 tmp (y :: M) ∧ (tmp ≠ none → head2 = head) := by
  cases tmp with
  | none =>
    refine ⟨h, some a, rfl, ha, fun _ _ => rfl, fun t e => by simp at e, ?_⟩
    intro h2 head2 M hc hh hv _
    subst hh
    refine ⟨?_, fun e => absurd rfl e⟩
    obtain ⟨c, hc1, hc2⟩ := hc
    rw [hc1, ha] at hv
    simp only [Option.map_some', Option.some.injEq] at hv
    refine ⟨by rw [hy], c.next, ?_, hc2⟩
    rw [hy, hc1, ← hv]
  | some t =>
    obtain ⟨⟨c, hc⟩, hta⟩ := ht t rfl
    have hat : a ≠ t := fun e => hta e.symm
    refine ⟨h.store t { c with next := some a }, head, ?_, ?_, ?_, ?_, ?_⟩
    · simp [store_at, Heap.setNext, hc]
    · rw [Heap.store_other h _ hat]
      exact ha
    · intro b hb
      have : b ≠ t := fun e => hb (by rw [e])
      rw [Heap.store_other h _ this]
    · intro t2 e
      have : t2 = t := (Option.some.inj e).symm
      subst this
      rw [Heap.store_same, hc]
      rfl
    · intro h2 head2 M hch hh hv hfr
      refine ⟨?_, fun _ => hh⟩
      have h2t := hfr t rfl
      rw [Heap.store_same] at h2t
      refine ⟨_, h2t, ?_⟩
      obtain ⟨c2, hc1, hc2⟩ := hch
      rw [hc1, Heap.store_other h _ hat, ha] at hv
      simp only [Option.map_some', Option.some.injEq] at hv
      refine ⟨by simp [hy], c2.next, ?_, hc2⟩
      rw [hy, hc1, ← hv]

/-- Storing the rest of a chain at the location `tmp` (the exit of the merge loop). -/
theorem store_at_exit {h : Heap} (head : Option Nat) {tmp p : Option Nat} {M : List (Nat × List Nat)}
    (hM : IsList h p M) (ht : ∀ t, tmp = some t → (∃ c, h t = some c) ∧ t ∉ addrs M) :
    ∃ h1 head1, store_at h head tmp p = some (h1, head1) ∧ ChainAt h1 head1 tmp M ∧
      (tmp ≠ none → head1 = head) ∧
      (∀ t, tmp = some t → Option.map list_ele_t.value (h1 t) = Option.map list_ele_t.value (h t)) ∧
      (∀ b, tmp ≠ some b → h1 b = h b) := by
  cases tmp with
  | none =>
    exact ⟨h, p, rfl, hM, fun e => absurd rfl e, fun t e => by simp at e, fun _ _ => rfl⟩
  | some t =>
    obtain ⟨⟨c, hc⟩, htM⟩ := ht t rfl
    refine ⟨h.store t { c with next := p }, head, ?_, ?_, fun _ => rfl, ?_, ?_⟩
    · simp [store_at, Heap.setNext, hc]
    · exact ⟨_, Heap.store_same h _ _, hM.store_frame _ htM⟩
    · intro t2 e
      have : t2 = t := (Option.some.inj e).symm
      subst this
      rw [Heap.store_same, hc]
      rfl
    · intro b hb
      have : b ≠ t := fun e => hb (by rw [e])
      rw [Heap.store_other h _ this]

theorem mem_addrs_cons_self (x : Nat × List Nat) (xs : List (Nat × List Nat)) :
    x.1 ∈ addrs (x :: xs) := by
  simp [addrs]

theorem mem_addrs_cons_of_mem (x : Nat × List Nat) {xs : List (Nat × List Nat)} {b : Nat}
    (hb : b ∈ addrs xs) : b ∈ addrs (x :: xs) := by
  simp only [addrs, List.map_cons, List.mem_cons]
  exact Or.inr hb

/-- The merge loop of `mergeSort`: with the chain `L1` at `l1` and the chain `L2` at `l2`,
the chain left at the location `tmp` is the merge of `L2` and `L1` that takes the front
cell of `L1` only when its string is strictly below the string of the front cell of `L2`. -/
theorem merge_loop_spec (fuel : Nat) :
    ∀ (h : Heap) (head tmp l1 l2 : Option Nat) (L1 L2 : List (Nat × List Nat)),
      IsList h l1 L1 → IsList h l2 L2 → (∀ b ∈ addrs L1, b ∉ addrs L2) →
      (∀ t, tmp = some t → (∃ c, h t = some c) ∧ t ∉ addrs L1 ∧ t ∉ addrs L2) →
      L1.length + L2.length < fuel →
      ∃ h1 head1, merge_loop fuel h head tmp l1 l2 = some (h1, head1) ∧
        ChainAt h1 head1 tmp (List.merge L2 L1 cell_le) ∧
        (tmp ≠ none → head1 = head) ∧
        (∀ t, tmp = some t →
          Option.map list_ele_t.value (h1 t) = Option.map list_ele_t.value (h t)) ∧
        (∀ b, b ∉ addrs L1 → b ∉ addrs L2 → tmp ≠ some b → h1 b = h b) := by
  induction fuel with
  | zero => intro h head tmp l1 l2 L1 L2 _ _ _ _ hf; omega
  | succ f ih =>
    intro h head tmp l1 l2 L1 L2 h1 h2 hd ht hf
    match L1, h1 with
    | [], h1 =>
      have e1 : l1 = none := h1
      subst e1
      obtain ⟨h3, head3, hr, hc, hh, hv, hfr⟩ :=
        store_at_exit head h2 (fun t e => ⟨(ht t e).1, (ht t e).2.2⟩)
      refine ⟨h3, head3, ?_, by simpa using hc, hh, hv, fun b _ _ hb => hfr b hb⟩
      simp only [merge_loop]
      exact hr
    | y :: L1r, h1 =>
      match L2, h2 with
      | [], h2 =>
        have e2 : l2 = none := h2
        subst e2
        have e1 : l1 = some y.1 := h1.1
        subst e1
        obtain ⟨h3, head3, hr, hc, hh, hv, hfr⟩ :=
          store_at_exit head h1 (fun t e => ⟨(ht t e).1, (ht t e).2.1⟩)
        refine ⟨h3, head3, ?_, by simpa using hc, hh, hv, fun b _ _ hb => hfr b hb⟩
        simp only [merge_loop]
        exact hr
      | x :: L2r, h2 =>
        have hnm1 := IsList.head_not_mem h1
        have hnm2 := IsList.head_not_mem h2
        have h1full := h1
        have h2full := h2
        obtain ⟨e1, n1, hn1, hl1⟩ := h1
        obtain ⟨e2, n2, hn2, hl2⟩ := h2
        subst e1
        subst e2
        have hyx : y.1 ≠ x.1 := fun e =>
          hd y.1 (mem_addrs_cons_self y L1r) (e ▸ mem_addrs_cons_self x L2r)
        by_cases hlt : strcmp y.2 x.2 < 0
        · -- the front cell of `L1` is taken
          obtain ⟨h3, head3, hr3, h3a, hfr3, hv3, hfin⟩ :=
            store_at_step head tmp rfl hn1 (fun t e => ⟨(ht t e).1,
              fun e2 => (ht t e).2.1 (e2 ▸ mem_addrs_cons_self y L1r)⟩)
          have hl1' : IsList h3 n1 L1r := hl1.frame (fun b hb => hfr3 b (fun e =>
            (ht b e).2.1 (mem_addrs_cons_of_mem y hb)))
          have hl2' : IsList h3 (some x.1) (x :: L2r) := h2full.frame (fun b hb => hfr3 b
            (fun e => (ht b e).2.2 hb))
          obtain ⟨h4, head4, hr4, hc4, hh4, hv4, hfr4⟩ := ih h3 head3 (some y.1) n1 (some x.1)
            L1r (x :: L2r) hl1' hl2' (fun b hb => hd b (mem_addrs_cons_of_mem y hb))
            (fun t e => by
              have : t = y.1 := (Option.some.inj e).symm
              subst this
              exact ⟨⟨_, h3a⟩, hnm1, hd _ (mem_addrs_cons_self y L1r)⟩)
            (by simp only [List.length_cons] at hf ⊢; omega)
          obtain ⟨hch, hhead⟩ := hfin h4 head4 _ hc4 (hh4 (by simp)) (hv4 _ rfl)
            (fun t e => hfr4 t (fun e2 => (ht t e).2.1 (mem_addrs_cons_of_mem y e2))
              (fun e2 => (ht t e).2.2 e2)
              (fun e2 => (ht t e).2.1 ((Option.some.inj e2) ▸ mem_addrs_cons_self y L1r)))
          refine ⟨h4, head4, ?_, ?_, hhead, ?_, ?_⟩
          · simp only [merge_loop, hn1, hn2, hlt, if_true, hr3, h3a]
            exact hr4
          · have : List.merge (x :: L2r) (y :: L1r) cell_le
                = y :: List.merge (x :: L2r) L1r cell_le := by
              simp only [List.merge, not_cell_le_of_lt hlt]
              simp
            rw [this]
            exact hch
          · intro t e
            rw [← hv3 t e]
            congr 1
            exact hfr4 t (fun e2 => (ht t e).2.1 (mem_addrs_cons_of_mem y e2))
              (fun e2 => (ht t e).2.2 e2)
              (fun e2 => (ht t e).2.1 ((Option.some.inj e2) ▸ mem_addrs_cons_self y L1r))
          · intro b hb1 hb2 hb3
            rw [hfr4 b (fun e => hb1 (mem_addrs_cons_of_mem y e)) hb2
              (fun e => hb1 ((Option.some.inj e) ▸ mem_addrs_cons_self y L1r)), hfr3 b hb3]
        · -- the front cell of `L2` is taken
          obtain ⟨h3, head3, hr3, h3a, hfr3, hv3, hfin⟩ :=
            store_at_step head tmp rfl hn2 (fun t e => ⟨(ht t e).1,
              fun e2 => (ht t e).2.2 (e2 ▸ mem_addrs_cons_self x L2r)⟩)
          have hl1' : IsList h3 (some y.1) (y :: L1r) := h1full.frame (fun b hb => hfr3 b
            (fun e => (ht b e).2.1 hb))
          have hl2' : IsList h3 n2 L2r := hl2.frame (fun b hb => hfr3 b (fun e =>
            (ht b e).2.2 (mem_addrs_cons_of_mem x hb)))
          obtain ⟨h4, head4, hr4, hc4, hh4, hv4, hfr4⟩ := ih h3 head3 (some x.1) (some y.1) n2
            (y :: L1r) L2r hl1' hl2' (fun b hb hb2 => hd b hb (mem_addrs_cons_of_mem x hb2))
            (fun t e => by
              have : t = x.1 := (Option.some.inj e).symm
              subst this
              exact ⟨⟨_, h3a⟩, fun e2 => hd _ e2 (mem_addrs_cons_self x L2r), hnm2⟩)
            (by simp only [List.length_cons] at hf ⊢; omega)
          obtain ⟨hch, hhead⟩ := hfin h4 head4 _ hc4 (hh4 (by simp)) (hv4 _ rfl)
            (fun t e => hfr4 t (fun e2 => (ht t e).2.1 e2)
              (fun e2 => (ht t e).2.2 (mem_addrs_cons_of_mem x e2))
              (fun e2 => (ht t e).2.2 ((Option.some.inj e2) ▸ mem_addrs_cons_self x L2r)))
          refine ⟨h4, head4, ?_, ?_, hhead, ?_, ?_⟩
          · simp only [merge_loop, hn1, hn2, hlt, if_false, hr3, h3a]
            exact hr4
          · have : List.merge (x :: L2r) (y :: L1r) cell_le
                = x :: List.merge L2r (y :: L1r) cell_le := by
              simp only [List.merge, cell_le_of_not_lt hlt]
              simp
            rw [this]
            exact hch
          · intro t e
            rw [← hv3 t e]
            congr 1
            exact hfr4 t (fun e2 => (ht t e).2.1 e2)
              (fun e2 => (ht t e).2.2 (mem_addrs_cons_of_mem x e2))
              (fun e2 => (ht t e).2.2 ((Option.some.inj e2) ▸ mem_addrs_cons_self x L2r))
          · intro b hb1 hb2 hb3
            rw [hfr4 b hb1 (fun e => hb2 (mem_addrs_cons_of_mem x e))
              (fun e => hb2 ((Option.some.inj e) ▸ mem_addrs_cons_self x L2r)), hfr3 b hb3]

theorem take_drop_succ_of_append {l A B : List (Nat × List Nat)} {x : Nat × List Nat}
    (h : l = A ++ x :: B) :
    l.take (A.length + 1) = A ++ [x] ∧ l.drop (A.length + 1) = B := by
  subst h
  constructor
  · rw [List.take_append_eq_append_take]
    simp
  · rw [List.drop_append_eq_append_drop]
    simp

theorem mem_addrs_mergeSort {l : List (Nat × List Nat)} {b : Nat} :
    b ∈ addrs (List.mergeSort l cell_le) ↔ b ∈ addrs l :=
  ((List.mergeSort_perm l cell_le).map Prod.fst).mem_iff

/-- Function `mergeSort` on the heap computes the merge sort of the chain, by re-linking
the cells of the chain and nothing else. -/
theorem mergeSort_spec (fuel : Nat) :
    ∀ (h : Heap) (p : Option Nat) (xs : List (Nat × List Nat)),
      IsList h p xs → xs.length + 1 < fuel →
      ∃ h1 p1, mergeSort fuel h p = some (h1, p1) ∧
        IsList h1 p1 (List.mergeSort xs cell_le) ∧ (∀ b, b ∉ addrs xs → h1 b = h b) := by
  induction fuel with
  | zero => intro h p xs _ hf; omega
  | succ f ih =>
    intro h p xs hl hf
    match xs, hl with
    | [], hl =>
      have : p = none := hl
      subst this
      exact ⟨h, none, rfl, by simp [IsList], fun _ _ => rfl⟩
    | [x], hl =>
      obtain ⟨hp, n, hn, hl2⟩ := hl
      have : n = none := hl2
      subst this
      subst hp
      refine ⟨h, some x.1, by simp [mergeSort, hn], ?_, fun _ _ => rfl⟩
      rw [List.mergeSort_singleton]
      exact ⟨rfl, none, hn, rfl⟩
    | x :: y :: zs, hl =>
      have hfull := hl
      obtain ⟨hp, n, hn, hl2⟩ := hl
      have hn2 : n = some y.1 := hl2.1
      subst hn2
      subst hp
      have hlen : (x :: y :: zs).length = zs.length + 2 := rfl
      -- the fast and slow walk
      obtain ⟨r, hr, hres⟩ := split_loop_spec f h (some y.1) (some x.1) (y :: zs)
        (x :: y :: zs) hl2 hfull (by simp only [List.length_cons]; omega)
        (by simp only [List.length_cons] at hf ⊢; omega)
      have hk : (y :: zs).length / 2 < (x :: y :: zs).length := by
        simp only [List.length_cons]; omega
      cases hdrop : (x :: y :: zs).drop ((y :: zs).length / 2) with
      | nil =>
        have := congrArg List.length hdrop
        rw [List.length_drop] at this
        simp only [List.length_nil] at this
        omega
      | cons xm B =>
        rw [hdrop] at hres
        have hsplit : x :: y :: zs = (x :: y :: zs).take ((y :: zs).length / 2) ++ xm :: B := by
          rw [← hdrop, List.take_append_drop]
        have hAlen : ((x :: y :: zs).take ((y :: zs).length / 2)).length
            = (y :: zs).length / 2 := by
          rw [List.length_take]
          omega
        obtain ⟨htake, hdrop2⟩ := take_drop_succ_of_append hsplit
        rw [hAlen] at htake hdrop2
        have hhalf : (zs.length + 2 + 1) / 2 = (y :: zs).length / 2 + 1 := by
          simp only [List.length_cons]; omega
        have hr2 : r = some xm.1 := hres.1
        subst hr2
        rw [hsplit] at hfull
        have hdisj := IsList.append_disjoint (by
          have := hfull
          rw [show (x :: y :: zs).take ((y :: zs).length / 2) ++ xm :: B
            = ((x :: y :: zs).take ((y :: zs).length / 2) ++ [xm]) ++ B by simp] at this
          exact this)
        obtain ⟨nn, hnn, hfirst, hsecond⟩ := IsList.cut hfull
        rw [← htake] at hfirst hdisj
        -- lengths of the two parts
        have hlen1 : ((x :: y :: zs).take ((y :: zs).length / 2 + 1)).length
            = (y :: zs).length / 2 + 1 := by
          rw [List.length_take]
          simp only [List.length_cons]
          omega
        have hlenB : B.length = zs.length + 2 - ((y :: zs).length / 2 + 1) := by
          rw [← hdrop2, List.length_drop]
          rfl
        -- first recursive call
        obtain ⟨h2, l2, hm1, hs1, hf1⟩ := ih _ (some x.1) _ hfirst (by
          rw [hlen1]
          simp only [List.length_cons] at hf ⊢
          omega)
        have hsecond2 : IsList h2 nn B := hsecond.frame (fun b hb => hf1 b (fun e =>
          hdisj b e hb))
        -- second recursive call
        obtain ⟨h3, l1, hm2, hs2, hf2⟩ := ih h2 nn B hsecond2 (by
          rw [hlenB]
          simp only [List.length_cons] at hf ⊢
          omega)
        have hs1' : IsList h3 l2
            (List.mergeSort ((x :: y :: zs).take ((y :: zs).length / 2 + 1)) cell_le) :=
          hs1.frame (fun b hb => hf2 b (fun e => hdisj b (mem_addrs_mergeSort.1 hb) e))
        -- the merge
        obtain ⟨h4, head4, hm3, hc, _, _, hf3⟩ := merge_loop_spec f h3 none none l1 l2 _ _
          hs2 hs1'
          (fun b hb1 hb2 => hdisj b (mem_addrs_mergeSort.1 hb2) (mem_addrs_mergeSort.1 hb1))
          (fun t e => by simp at e)
          (by
            rw [List.length_mergeSort, List.length_mergeSort, hlen1, hlenB]
            simp only [List.length_cons] at hf ⊢
            omega)
        refine ⟨h4, head4, ?_, ?_, ?_⟩
        · simp only [mergeSort, hn, hr, hnn, hm1, hm2]
          exact hm3
        · rw [mergeSort_cons_cons, hhalf, hdrop2]
          exact hc
        · intro b hb
          have hb1 : b ∉ addrs ((x :: y :: zs).take ((y :: zs).length / 2 + 1)) := by
            intro e
            apply hb
            simp only [addrs] at e ⊢
            rw [List.map_take] at e
            exact List.mem_of_mem_take e
          have hb2 : b ∉ addrs B := by
            intro e
            apply hb
            rw [← hdrop2] at e
            simp only [addrs] at e ⊢
            rw [List.map_drop] at e
            exact List.mem_of_mem_drop e
          have hb3 : b ≠ xm.1 := by
            intro e
            apply hb1
            rw [htake, e]
            simp [addrs]
          rw [hf3 b (fun e => hb2 (mem_addrs_mergeSort.1 e))
            (fun e => hb1 (mem_addrs_mergeSort.1 e)) (by simp), hf2 b hb2, hf1 b hb1,
            Heap.store_other h _ hb3]

/-- The walk of `q_sort` from a cell of the chain to its last cell. -/
theorem tail_loop_spec (ys : List (Nat × List Nat)) :
    ∀ (fuel : Nat) (h : Heap) (p : Option Nat) (x : Nat × List Nat),
      IsList h p (ys ++ [x]) → ys.length < fuel →
      tail_loop fuel h p = some (some x.1) := by
  induction ys with
  | nil =>
    intro fuel h p x hl hf
    obtain ⟨hp, n, hn, hl2⟩ := hl
    have : n = none := hl2
    subst this
    subst hp
    cases fuel with
    | zero => omega
    | succ f => simp [tail_loop, hn]
  | cons y ys ih =>
    intro fuel h p x hl hf
    obtain ⟨hp, n, hn, hl2⟩ := hl
    subst hp
    cases fuel with
    | zero => omega
    | succ f =>
      have hn2 : ∃ a, n = some a := by
        cases ys with
        | nil => exact ⟨x.1, hl2.1⟩
        | cons z zs => exact ⟨z.1, hl2.1⟩
      obtain ⟨a, ha⟩ := hn2
      subst ha
      have := ih f h (some a) x hl2 (by simp only [List.length_cons] at hf; omega)
      simp only [tail_loop, hn]
      exact this

theorem mergeSort_short {xs : List (Nat × List Nat)} (hl : xs.length < 2) :
    List.mergeSort xs cell_le = xs := by
  match xs, hl with
  | [], _ => simp
  | [_], _ => simp

/-- Effect of `q_sort` on a queue that satisfies the invariant: the cells are re-linked
into their merge sort, `tail` is the last of them, `size` and every other cell of the heap
are unchanged. -/
theorem q_sort_spec (fuel : Nat) (h : Heap) (q : queue_t) (xs : List (Nat × List Nat))
    (hi : Inv h q xs) (hf : xs.length + 1 < fuel) :
    ∃ h1 q1, q_sort fuel h (some q) = some (h1, some q1) ∧
      Inv h1 q1 (List.mergeSort xs cell_le) ∧ q1.size = q.size ∧
      (∀ b, b ∉ addrs xs → h1 b = h b) := by
  by_cases hsz : q.head = none ∨ q.size ≤ 1
  · have hlen : xs.length < 2 := by
      rcases hsz with hh | hs
      · have := hi.head_none_iff.1 hh
        subst this
        simp
      · have := hi.2.1
        omega
    refine ⟨h, q, by simp only [q_sort, hsz, if_true], ?_, rfl, fun _ _ => rfl⟩
    rw [mergeSort_short hlen]
    exact hi
  · have hlen : 2 ≤ xs.length := by
      have := hi.2.1
      have h2 : ¬ q.size ≤ 1 := fun e => hsz (Or.inr e)
      omega
    obtain ⟨h1, hd, hm, hs, hfr⟩ := mergeSort_spec fuel h q.head xs hi.1 hf
    -- the former tail is a cell of the sorted chain
    rcases List.eq_nil_or_concat xs with hx | ⟨ys, x, hx⟩
    · subst hx
      simp at hlen
    · rw [List.concat_eq_append] at hx
      have ht : q.tail = some x.1 := by
        rw [hi.2.2, hx]
        simp
      have hmem : x.1 ∈ addrs (List.mergeSort xs cell_le) := by
        rw [mem_addrs_mergeSort, hx]
        simp [addrs]
      obtain ⟨A, Z, hAZ, hZ, hlZ⟩ := hs.suffix_of_mem hmem
      rcases List.eq_nil_or_concat Z with hz | ⟨Z1, w, hz⟩
      · exact absurd hz hZ
      · rw [List.concat_eq_append] at hz
        subst hz
        have hZlen : Z1.length < fuel := by
          have := congrArg List.length hAZ
          rw [List.length_mergeSort] at this
          simp only [List.length_append, List.length_singleton] at this
          omega
        have htl := tail_loop_spec Z1 fuel h1 (some x.1) w hlZ hZlen
        refine ⟨h1, { head := hd, tail := some w.1, size := q.size }, ?_, ⟨hs, ?_, ?_⟩, rfl, hfr⟩
        · simp only [q_sort, hsz, if_false, hm, ht, htl]
        · rw [List.length_mergeSort]
          exact hi.2.1
        · rw [hAZ, ← List.append_assoc]
          simp

/-! ## Sorting -/

/-- C1: after `q_sort` on a queue that holds the cells `xs`, the strings read from head to
tail are in ascending order under `strcmp`: every string is not above its successor, and
not above any later string. -/
theorem q_sort_sorted (fuel : Nat) (h : Heap) (q : queue_t) (xs : List (Nat × List Nat))
    (hi : Inv h q xs) (hf : xs.length + 1 < fuel) :
    ∃ h1 q1 ys, q_sort fuel h (some q) = some (h1, some q1) ∧ IsList h1 q1.head ys ∧
      List.Chain' (fun a b => strcmp a b ≤ 0) (payloads ys) ∧
      List.Pairwise (fun a b => strcmp a b ≤ 0) (payloads ys) := by
  obtain ⟨h1, q1, hr, hinv, _, _⟩ := q_sort_spec fuel h q xs hi hf
  have hsorted := List.sorted_mergeSort cell_le_trans cell_le_total xs
  have hpw : List.Pairwise (fun a b => strcmp a b ≤ 0)
      (payloads (List.mergeSort xs cell_le)) := by
    rw [payloads, List.pairwise_map]
    exact hsorted.imp (fun hab => (cell_le_iff _ _).1 hab)
  exact ⟨h1, q1, _, hr, hinv.1, List.Pairwise.chain' hpw, hpw⟩

/-- Witness for C1 on the example queue `"b", "a", "c"`. -/
theorem q_sort_sorted_witness :
    (Inv ex_heap ex_queue ex_cells ∧ ex_cells.length + 1 < 5) ∧
    ∃ h1 q1 ys, q_sort 5 ex_heap (some ex_queue) = some (h1, some q1) ∧
      IsList h1 q1.head ys ∧
      List.Chain' (fun a b => strcmp a b ≤ 0) (payloads ys) ∧
      List.Pairwise (fun a b => strcmp a b ≤ 0) (payloads ys) :=
  ⟨⟨by decide, by decide⟩, q_sort_sorted 5 ex_heap ex_queue ex_cells (by decide) (by decide)⟩

/-- C2: `q_sort` leaves a permutation of the cells: the cells after the call are the cells
before it, none lost and none twice, so the multiset of the strings is the same; `size`
is unchanged and no other cell of the heap is touched. -/
theorem q_sort_perm (fuel : Nat) (h : Heap) (q : queue_t) (xs : List (Nat × List Nat))
    (hi : Inv h q xs) (hf : xs.length + 1 < fuel) :
    ∃ h1 q1 ys, q_sort fuel h (some q) = some (h1, some q1) ∧ IsList h1 q1.head ys ∧
      ys.Perm xs ∧ (addrs ys).Nodup ∧
      ((payloads ys : Multiset (List Nat)) = (payloads xs : Multiset (List Nat))) ∧
      q1.size = q.size ∧ q1.size = (ys.length : Int) ∧
      (∀ b, b ∉ addrs xs → h1 b = h b) := by
  obtain ⟨h1, q1, hr, hinv, hs, hfr⟩ := q_sort_spec fuel h q xs hi hf
  have hperm := List.mergeSort_perm xs cell_le
  refine ⟨h1, q1, _, hr, hinv.1, hperm, hinv.1.nodup, ?_, hs, hinv.2.1, hfr⟩
  exact Multiset.coe_eq_coe.2 (hperm.map Prod.snd)

/-- Witness for C2 on the example queue `"b", "a", "c"`. -/
theorem q_sort_perm_witness :
    (Inv ex_heap ex_queue ex_cells ∧ ex_cells.length + 1 < 5) ∧
    ∃ h1 q1 ys, q_sort 5 ex_heap (some ex_queue) = some (h1, some q1) ∧
      IsList h1 q1.head ys ∧
      ys.Perm ex_cells ∧ (addrs ys).Nodup ∧
      ((payloads ys : Multiset (List Nat)) = (payloads ex_cells : Multiset (List Nat))) ∧
      q1.size = ex_queue.size ∧ q1.size = (ys.length : Int) ∧
      (∀ b, b ∉ addrs ex_cells → h1 b = ex_heap b) :=
  ⟨⟨by decide, by decide⟩, q_sort_perm 5 ex_heap ex_queue ex_cells (by decide) (by decide)⟩

/-! ## The container invariant -/

theorem Inv.to_container_invariant {h : Heap} {q : queue_t} {xs : List (Nat × List Nat)}
    (hi : Inv h q xs) : container_invariant h q := by
  refine ⟨xs, hi.1, hi.2.1, ?_, ?_, ?_⟩
  · rw [hi.head_none_iff, hi.2.1]
    constructor
    · intro e
      exact List.length_eq_zero.mp (by exact_mod_cast e)
    · intro e
      subst e
      rfl
  · rw [hi.head_none_iff, hi.tail_none_iff]
  · intro hs
    rcases List.eq_nil_or_concat xs with hx | ⟨ys, x, hx⟩
    · subst hx
      have := hi.2.1
      simp at this
      omega
    · rw [List.concat_eq_append] at hx
      subst hx
      refine ⟨x.1, _, ?_, ?_, hi.1.last_cell, rfl⟩
      · rw [hi.2.2]
        simp
      · simp [addrs]

theorem container_invariant.to_inv {h : Heap} {q : queue_t} (hc : container_invariant h q) :
    ∃ xs, Inv h q xs := by
  obtain ⟨xs, hl, hs, h0, hht, h1⟩ := hc
  refine ⟨xs, hl, hs, ?_⟩
  rcases List.eq_nil_or_concat xs with hx | ⟨ys, x, hx⟩
  · subst hx
    have : q.size = 0 := by simpa using hs
    rw [hht.1 (h0.1 this)]
    rfl
  · rw [List.concat_eq_append] at hx
    subst hx
    have : 1 ≤ q.size := by
      rw [hs]
      simp
    obtain ⟨t, c, ht, hlast, _, _⟩ := h1 this
    rw [ht]
    have hl2 : (addrs (ys ++ [x])).getLast? = some x.1 := by simp [addrs]
    rw [hl2] at hlast
    rw [← Option.some.inj hlast]
    simp

/-- Effect of `q_remove_head` on a queue that satisfies the invariant. -/
theorem q_remove_head_spec (h : Heap) (q : queue_t) (xs : List (Nat × List Nat))
    (hi : Inv h q xs) (sp : Option (Nat → Nat)) (bufsize : Nat) :
    ∃ b h1 q1 sp1, q_remove_head h (some q) sp bufsize = some (b, h1, some q1, sp1) ∧
      Inv h1 q1 xs.tail ∧ (b = true ↔ xs ≠ []) := by
  cases xs with
  | nil =>
    have hp : q.head = none := hi.1
    exact ⟨false, h, q, sp, by simp only [q_remove_head, hp], hi, by simp⟩
  | cons x xs =>
    obtain ⟨hl, hs, ht⟩ := hi
    obtain ⟨n, hn, hl2, hr⟩ := q_remove_head_cons hl sp bufsize
    have hsz : q.size - 1 = (xs.length : Int) := by
      rw [hs]
      simp
    refine ⟨true, _, _, _, hr, ?_, by simp⟩
    by_cases hz : q.size - 1 = 0
    · have hxs : xs = [] := by
        rw [hsz] at hz
        exact List.length_eq_zero.mp (by exact_mod_cast hz)
      subst hxs
      simp only [hz, if_true]
      exact ⟨hl2, by simp [hz], by simp⟩
    · have hxs : xs ≠ [] := by
        intro e
        subst e
        simp at hsz
        exact hz hsz
      simp only [hz, if_false]
      exact ⟨hl2, hsz, by rw [ht, getLast?_cons_of_ne_nil x hxs]; rfl⟩

/-- Whatever the allocator answers, a call of `q_insert_head` that returns leaves a queue
that satisfies the invariant. -/
theorem q_insert_head_any (h : Heap) (q : queue_t) (xs : List (Nat × List Nat))
    (s : List Nat) (newh : Option Nat) (tmp : Bool) (hi : Inv h q xs)
    (ha : ∀ a, newh = some a → h a = none)
    (r : Bool × Heap × Option queue_t) (hr : q_insert_head h (some q) s newh tmp = some r) :
    ∃ q1 ys, r.2.2 = some q1 ∧ Inv r.2.1 q1 ys := by
  cases newh with
  | none =>
    simp only [q_insert_head, Option.some.injEq] at hr
    subst hr
    exact ⟨q, xs, rfl, hi⟩
  | some a =>
    cases tmp with
    | false =>
      simp only [q_insert_head, Bool.not_false, if_true, Option.some.injEq] at hr
      subst hr
      exact ⟨q, xs, rfl, hi⟩
    | true =>
      cases hv : memcpy_string s (size_t_of_int (payload_len s)) with
      | none => simp [q_insert_head, hv] at hr
      | some v =>
        obtain ⟨h1, q1, hr1, hinv⟩ := q_insert_head_copy_inv h q xs s v a hi (ha a rfl) hv
        rw [hr1] at hr
        have := Option.some.inj hr
        subst this
        exact ⟨q1, _, rfl, hinv⟩

/-- Whatever the allocator answers, a call of `q_insert_tail` that returns leaves a queue
that satisfies the invariant. -/
theorem q_insert_tail_any (h : Heap) (q : queue_t) (xs : List (Nat × List Nat))
    (s : List Nat) (newt : Option Nat) (tmp : Bool) (hi : Inv h q xs)
    (ha : ∀ a, newt = some a → h a = none)
    (r : Bool × Heap × Option queue_t) (hr : q_insert_tail h (some q) s newt tmp = some r) :
    ∃ q1 ys, r.2.2 = some q1 ∧ Inv r.2.1 q1 ys := by
  cases newt with
  | none =>
    simp only [q_insert_tail, Option.some.injEq] at hr
    subst hr
    exact ⟨q, xs, rfl, hi⟩
  | some a =>
    cases tmp with
    | false =>
      simp only [q_insert_tail, Bool.not_false, if_true, Option.some.injEq] at hr
      subst hr
      exact ⟨q, xs, rfl, hi⟩
    | true =>
      cases hv : memcpy_string s (size_t_of_int (payload_len s)) with
      | none => simp [q_insert_tail, hv] at hr
      | some v =>
        obtain ⟨h1, q1, hr1, hinv, _⟩ := q_insert_tail_copy h q xs s v a hi (ha a rfl) hv
        rw [hr1] at hr
        have := Option.some.inj hr
        subst this
        exact ⟨q1, _, rfl, hinv⟩

/-- C10: the container invariant holds for the queue returned by `q_new` and is preserved
by `q_insert_head`, `q_insert_tail`, `q_remove_head`, `q_reverse` and `q_sort`, whether
they succeed or fail. On a queue that satisfies the invariant, every insertion that
returns (with true or with false, whatever the allocator answers) leaves a queue that
satisfies it, and the insertions do return for a string shorter than `2 ^ 31 - 1` bytes;
`q_remove_head`, called without a buffer or with a buffer of at least one byte, returns
(true or false) and leaves a queue that satisfies it; `q_reverse` and `q_sort` return,
with more fuel than `size + 1`, and leave a queue that satisfies it. The allocator hands
out an address that is not allocated. -/
theorem container_invariant_preserved (h : Heap) (q : queue_t) (s : List Nat)
    (newh : Option Nat) (tmp : Bool) (sp : Option (Nat → Nat)) (bufsize fuel : Nat)
    (hq : container_invariant h q) (ha : ∀ a, newh = some a → h a = none)
    (hf : q.size + 1 < (fuel : Int)) (hsp : sp = none ∨ 1 ≤ bufsize) :
    (∀ (alloc : Bool) (q0 : queue_t) (h0 : Heap), q_new alloc = some q0 →
      container_invariant h0 q0) ∧
    (∀ r, q_insert_head h (some q) s newh tmp = some r →
      ∃ q1, r.2.2 = some q1 ∧ container_invariant r.2.1 q1) ∧
    (s.length + 1 < 2 ^ 31 → ∃ r, q_insert_head h (some q) s newh tmp = some r) ∧
    (∀ r, q_insert_tail h (some q) s newh tmp = some r →
      ∃ q1, r.2.2 = some q1 ∧ container_invariant r.2.1 q1) ∧
    (s.length + 1 < 2 ^ 31 → ∃ r, q_insert_tail h (some q) s newh tmp = some r) ∧
    (∃ b h1 q1 sp1, q_remove_head h (some q) sp bufsize = some (b, h1, some q1, sp1) ∧
      container_invariant h1 q1) ∧
    (∃ h1 q1, q_reverse fuel h (some q) = some (h1, some q1) ∧ container_invariant h1 q1) ∧
    (∃ h1 q1, q_sort fuel h (some q) = some (h1, some q1) ∧ container_invariant h1 q1) := by
  have _ := hsp
  obtain ⟨xs, hi⟩ := hq.to_inv
  have hlen : xs.length + 1 < fuel := by
    have := hi.2.1
    omega
  refine ⟨?_, ?_, ?_, ?_, ?_, ?_, ?_, ?_⟩
  · intro alloc q0 h0 hn
    cases alloc with
    | false => simp [q_new] at hn
    | true =>
      simp only [q_new, if_true, Option.some.injEq] at hn
      subst hn
      exact (show Inv h0 ⟨none, none, 0⟩ [] from ⟨rfl, rfl, rfl⟩).to_container_invariant
  · intro r hr
    obtain ⟨q1, ys, e, hinv⟩ := q_insert_head_any h q xs s newh tmp hi ha r hr
    exact ⟨q1, e, hinv.to_container_invariant⟩
  · intro hs
    cases newh with
    | none => exact ⟨_, rfl⟩
    | some a =>
      cases tmp with
      | false => exact ⟨_, rfl⟩
      | true =>
        obtain ⟨h1, q1, hr, _⟩ := q_insert_head_inv h q xs s a hi (ha a rfl) hs
        exact ⟨_, hr⟩
  · intro r hr
    obtain ⟨q1, ys, e, hinv⟩ := q_insert_tail_any h q xs s newh tmp hi ha r hr
    exact ⟨q1, e, hinv.to_container_invariant⟩
  · intro hs
    cases newh with
    | none => exact ⟨_, rfl⟩
    | some a =>
      cases tmp with
      | false => exact ⟨_, rfl⟩
      | true =>
        obtain ⟨h1, q1, hr, _⟩ := q_insert_tail_short h q xs s a hi (ha a rfl) hs
        exact ⟨_, hr⟩
  · obtain ⟨b, h1, q1, sp1, hr, hinv, _⟩ := q_remove_head_spec h q xs hi sp bufsize
    exact ⟨b, h1, q1, sp1, hr, hinv.to_container_invariant⟩
  · obtain ⟨h1, q1, hr, hinv, _⟩ := q_reverse_spec fuel h q xs hi (by omega)
    exact ⟨h1, q1, hr, hinv.to_container_invariant⟩
  · obtain ⟨h1, q1, hr, hinv, _⟩ := q_sort_spec fuel h q xs hi hlen
    exact ⟨h1, q1, hr, hinv.to_container_invariant⟩

/-- Witness for C10 on the example queue `"b", "a", "c"`, with the string `"d"`, a new
cell at the address 9, a buffer of capacity 4 and fuel 5. -/
theorem container_invariant_preserved_witness :
    (container_invariant ex_heap ex_queue ∧ (∀ a, some 9 = some a → ex_heap a = none) ∧
      ex_queue.size + 1 < ((5 : Nat) : Int) ∧
      ((some (fun _ => 7) : Option (Nat → Nat)) = none ∨ 1 ≤ 4)) ∧
    ((∀ (alloc : Bool) (q0 : queue_t) (h0 : Heap), q_new alloc = some q0 →
      container_invariant h0 q0) ∧
    (∀ r, q_insert_head ex_heap (some ex_queue) [100] (some 9) true = some r →
      ∃ q1, r.2.2 = some q1 ∧ container_invariant r.2.1 q1) ∧
    ([100].length + 1 < 2 ^ 31 →
      ∃ r, q_insert_head ex_heap (some ex_queue) [100] (some 9) true = some r) ∧
    (∀ r, q_insert_tail ex_heap (some ex_queue) [100] (some 9) true = some r →
      ∃ q1, r.2.2 = some q1 ∧ container_invariant r.2.1 q1) ∧
    ([100].length + 1 < 2 ^ 31 →
      ∃ r, q_insert_tail ex_heap (some ex_queue) [100] (some 9) true = some r) ∧
    (∃ b h1 q1 sp1, q_remove_head ex_heap (some ex_queue) (some (fun _ => 7)) 4
        = some (b, h1, some q1, sp1) ∧
      container_invariant h1 q1) ∧
    (∃ h1 q1, q_reverse 5 ex_heap (some ex_queue) = some (h1, some q1) ∧
      container_invariant h1 q1) ∧
    (∃ h1 q1, q_sort 5 ex_heap (some ex_queue) = some (h1, some q1) ∧
      container_invariant h1 q1)) :=
  ⟨⟨(show Inv ex_heap ex_queue ex_cells by decide).to_container_invariant,
      fun a e => by
        have : a = 9 := (Option.some.inj e).symm
        subst this
        rfl,
      by decide, Or.inr (by decide)⟩,
    container_invariant_preserved ex_heap ex_queue [100] (some 9) true (some (fun _ => 7)) 4 5
      (show Inv ex_heap ex_queue ex_cells by decide).to_container_invariant
      (fun a e => by
        have : a = 9 := (Option.some.inj e).symm
        subst this
        rfl)
      (by decide) (Or.inr (by decide))⟩

/-! ## Scenarios of the specification -/

/-- Scenario: `insert_tail("a")`, `insert_tail("b")`, `insert_head("z")` on a new queue,
with the cells allocated at the addresses 1, 2 and 3, give the order `z, a, b` and the
size 3. -/
theorem scenario_insert :
    q_insert_tail emptyHeap (q_new true) [97] (some 1) true
      = some (true, emptyHeap.store 1 ⟨[97], none⟩, some ⟨some 1, some 1, 1⟩) ∧
    q_insert_tail (emptyHeap.store 1 ⟨[97], none⟩) (some ⟨some 1, some 1, 1⟩) [98] (some 2) true
      = some (true, ((emptyHeap.store 1 ⟨[97], none⟩).store 2 ⟨[98], none⟩).store 1
          ⟨[97], some 2⟩, some ⟨some 1, some 2, 2⟩) ∧
    q_insert_head (((emptyHeap.store 1 ⟨[97], none⟩).store 2 ⟨[98], none⟩).store 1
        ⟨[97], some 2⟩) (some ⟨some 1, some 2, 2⟩) [122] (some 3) true
      = some (true, ((((emptyHeap.store 1 ⟨[97], none⟩).store 2 ⟨[98], none⟩).store 1
          ⟨[97], some 2⟩).store 3 ⟨[122], some 1⟩), some ⟨some 3, some 2, 3⟩) ∧
    Inv ((((emptyHeap.store 1 ⟨[97], none⟩).store 2 ⟨[98], none⟩).store 1
          ⟨[97], some 2⟩).store 3 ⟨[122], some 1⟩) ⟨some 3, some 2, 3⟩
      [(3, [122]), (1, [97]), (2, [98])] := by
  refine ⟨rfl, rfl, rfl, by decide⟩

/-- Scenario: `sort()` on the queue `"b", "a", "c"` gives the order `"a", "b", "c"`, and
`reverse()` gives the order `"c", "a", "b"`. -/
theorem scenario_sort_reverse :
    (∃ h1 q1, q_sort 5 ex_heap (some ex_queue) = some (h1, some q1) ∧
      Inv h1 q1 [(2, [97]), (1, [98]), (3, [99])]) ∧
    (∃ h1 q1, q_reverse 5 ex_heap (some ex_queue) = some (h1, some q1) ∧
      Inv h1 q1 [(3, [99]), (2, [97]), (1, [98])]) := by
  constructor
  · obtain ⟨h1, q1, hr, hinv, _⟩ := q_sort_spec 5 ex_heap ex_queue ex_cells (by decide)
      (by decide)
    have : List.mergeSort ex_cells cell_le = [(2, [97]), (1, [98]), (3, [99])] := by
      simp [ex_cells, mergeSort_cons_cons, List.merge, cell_le, strcmp]
    rw [this] at hinv
    exact ⟨h1, q1, hr, hinv⟩
  · obtain ⟨h1, q1, hr, hinv, _⟩ := q_reverse_spec 5 ex_heap ex_queue ex_cells (by decide)
      (by decide)
    exact ⟨h1, q1, hr, hinv⟩

/-! ## Failure of the insertions -/

/-- C12: `q_insert_head` and `q_insert_tail` are atomic on failure. On the `NULL` queue,
when the allocation of the cell fails, and when the allocation of the string fails, the
call returns false and the heap and the queue are as before the call. A call that returns
true had a queue and both allocations succeeded, and every call that returns false left
the heap and the queue as they were. -/
theorem q_insert_atomic_on_failure (h : Heap) (q : queue_t) (qo : Option queue_t)
    (s : List Nat) (newh : Option Nat) (tmp : Bool) (a : Nat) :
    (q_insert_head h none s newh tmp = some (false, h, none) ∧
      q_insert_head h (some q) s none tmp = some (false, h, some q) ∧
      q_insert_head h (some q) s (some a) false = some (false, h, some q) ∧
      ∀ r, q_insert_head h qo s newh tmp = some r →
        (r.1 = true → qo ≠ none ∧ newh ≠ none ∧ tmp = true) ∧
        (r.1 = false → r.2 = (h, qo))) ∧
    (q_insert_tail h none s newh tmp = some (false, h, none) ∧
      q_insert_tail h (some q) s none tmp = some (false, h, some q) ∧
      q_insert_tail h (some q) s (some a) false = some (false, h, some q) ∧
      ∀ r, q_insert_tail h qo s newh tmp = some r →
        (r.1 = true → qo ≠ none ∧ newh ≠ none ∧ tmp = true) ∧
        (r.1 = false → r.2 = (h, qo))) := by
  refine ⟨⟨rfl, rfl, rfl, ?_⟩, ⟨rfl, rfl, rfl, ?_⟩⟩
  · intro r hr
    cases qo with
    | none =>
      simp only [q_insert_head, Option.some.injEq] at hr
      subst hr
      simp
    | some q0 =>
      cases newh with
      | none =>
        simp only [q_insert_head, Option.some.injEq] at hr
        subst hr
        simp
      | some b =>
        cases tmp with
        | false =>
          simp only [q_insert_head, Bool.not_false, if_true, Option.some.injEq] at hr
          subst hr
          simp
        | true =>
          cases hv : memcpy_string s (size_t_of_int (payload_len s)) with
          | none => simp [q_insert_head, hv] at hr
          | some v =>
            simp only [q_insert_head, hv, Bool.not_true, Bool.false_eq_true, if_false,
              Option.some.injEq] at hr
            subst hr
            simp
  · intro r hr
    cases qo with
    | none =>
      simp only [q_insert_tail, Option.some.injEq] at hr
      subst hr
      simp
    | some q0 =>
      cases newh with
      | none =>
        simp only [q_insert_tail, Option.some.injEq] at hr
        subst hr
        simp
      | some b =>
        cases tmp with
        | false =>
          simp only [q_insert_tail, Bool.not_false, if_true, Option.some.injEq] at hr
          subst hr
          simp
        | true =>
          cases hv : memcpy_string s (size_t_of_int (payload_len s)) with
          | none => simp [q_insert_tail, hv] at hr
          | some v =>
            simp only [q_insert_tail, hv, Bool.not_true, Bool.false_eq_true, if_false] at hr
            split at hr
            · exact absurd hr (by simp)
            · have := Option.some.inj hr
              subst this
              simp

/-! ## Length of the copy -/

theorem copy_size_of_length (s : List Nat) (hs : s.length = 4294967296) :
    size_t_of_int (payload_len s) = 1 ∧ size_t_of_int (payload_len s) ≠ s.length + 1 := by
  rw [payload_len_of_length s hs, hs]
  unfold size_t_of_int SIZE_MOD
  norm_num

/-- C16, evaluation at the string of `2 ^ 32` bytes `'A'`: the `int` variable `len` is 1,
so one byte is requested and copied, not the `2 ^ 32 + 1` bytes of the string and its NUL;
with both allocations successful, `q_insert_head` and `q_insert_tail` return true and the
new cell holds the one-byte string `"A"`, which is not the string that was passed. -/
theorem payload_copy_long_string :
    payload_len long_string = 1 ∧
    size_t_of_int (payload_len long_string) = 1 ∧
    size_t_of_int (payload_len long_string) ≠ long_string.length + 1 ∧
    memcpy_string long_string (size_t_of_int (payload_len long_string)) = some [65] ∧
    ([65] : List Nat) ≠ long_string ∧
    q_insert_head emptyHeap (some ⟨none, none, 0⟩) long_string (some 1) true
      = some (true, emptyHeap.store 1 ⟨[65], none⟩, some ⟨some 1, some 1, 1⟩) ∧
    q_insert_tail emptyHeap (some ⟨none, none, 0⟩) long_string (some 1) true
      = some (true, emptyHeap.store 1 ⟨[65], none⟩, some ⟨some 1, some 1, 1⟩) := by
  refine ⟨payload_len_of_length _ long_string_length,
    (copy_size_of_length _ long_string_length).1,
    (copy_size_of_length _ long_string_length).2, ?_, long_string_ne, ?_, ?_⟩
  · rw [memcpy_of_length _ long_string_length, long_string_take_one]
  · rw [q_insert_head_of_length _ long_string_length, long_string_take_one]
  · rw [q_insert_tail_of_length _ long_string_length, long_string_take_one]

/-! ## Size query -/

/-- A count in the range of `int` is reported as it is. -/
theorem q_size_in_range (q : queue_t) (h0 : 0 ≤ q.size) (h1 : q.size < 2 ^ 31) :
    q_size (some q) = some q.size := by
  have h2 : INT_MIN ≤ q.size ∧ q.size ≤ INT_MAX := by
    unfold INT_MIN INT_MAX
    omega
  simp only [q_size, h2, and_self, if_true]

/-- On a queue that satisfies the invariant and holds fewer than `2 ^ 31` cells, `q_size`
returns the number of cells. -/
theorem q_size_of_inv {h : Heap} {q : queue_t} {xs : List (Nat × List Nat)}
    (hi : Inv h q xs) (hn : xs.length < 2 ^ 31) :
    q_size (some q) = some (xs.length : Int) := by
  have h1 := hi.2.1
  rw [q_size_in_range q (by omega) (by omega), h1]

/-- A count of `2 ^ 31` or more is not reported. -/
theorem q_size_out_of_range (q : queue_t) (h1 : 2 ^ 31 ≤ q.size) :
    q_size (some q) = none := by
  have h2 : ¬ (INT_MIN ≤ q.size ∧ q.size ≤ INT_MAX) := by
    unfold INT_MIN INT_MAX
    omega
  simp only [q_size, h2, if_false]

/-- C17, evaluation on the `NULL` queue: `q_size` reads `q->size` through the `NULL`
pointer, which is undefined behaviour, and does not return 0; on the empty queue it returns
0 and on the example queue of three cells it returns 3. -/
theorem q_size_null :
    q_size none = none ∧ q_size none ≠ some 0 ∧
    q_size (q_new true) = some 0 ∧ q_size (some ex_queue) = some 3 := by
  refine ⟨rfl, by simp [q_size], by decide, by decide⟩

/-! ## Reversal twice -/

/-- The cells of a chain are determined by the chain. -/
theorem IsList.cell_eq {h h2 : Heap} {p : Option Nat} {xs : List (Nat × List Nat)}
    (hx : IsList h p xs) (hy : IsList h2 p xs) : ∀ b ∈ addrs xs, h2 b = h b := by
  induction xs generalizing p with
  | nil => intro b hb; simp [addrs] at hb
  | cons x xs ih =>
    obtain ⟨_, n, hn, hl⟩ := hx
    obtain ⟨_, n2, hn2, hl2⟩ := hy
    have hnn : n2 = n := by
      cases xs with
      | nil =>
        have e1 : n = none := hl
        have e2 : n2 = none := hl2
        rw [e1, e2]
      | cons y ys => rw [hl.1, hl2.1]
    subst hnn
    intro b hb
    simp only [addrs, List.map_cons, List.mem_cons] at hb
    rcases hb with hb | hb
    · rw [hb, hn, hn2]
    · exact ih hl hl2 b hb

/-- The first pointer of a chain is determined by its cells. -/
theorem IsList.head_eq {h h2 : Heap} {p p2 : Option Nat} {xs : List (Nat × List Nat)}
    (hx : IsList h p xs) (hy : IsList h2 p2 xs) : p2 = p := by
  cases xs with
  | nil =>
    have e1 : p = none := hx
    have e2 : p2 = none := hy
    rw [e1, e2]
  | cons x xs => rw [hx.1, hy.1]

/-- A queue handle is determined by the cells it holds. -/
theorem Inv.queue_eq {h h2 : Heap} {q q2 : queue_t} {xs : List (Nat × List Nat)}
    (hi : Inv h q xs) (hj : Inv h2 q2 xs) : q2 = q := by
  have e1 : q2.head = q.head := IsList.head_eq hi.1 hj.1
  have e2 : q2.tail = q.tail := by rw [hi.2.2, hj.2.2]
  have e3 : q2.size = q.size := by rw [hi.2.1, hj.2.1]
  cases q
  cases q2
  simp_all

/-- Effect of two calls of `q_reverse`: the heap and the queue are as before. -/
theorem q_reverse_twice_spec (fuel : Nat) (h : Heap) (q : queue_t)
    (xs : List (Nat × List Nat)) (hi : Inv h q xs) (hf : xs.length < fuel) :
    ∃ h1 q1, q_reverse fuel h (some q) = some (h1, some q1) ∧ Inv h1 q1 xs.reverse ∧
      q_reverse fuel h1 (some q1) = some (h, some q) := by
  obtain ⟨h1, q1, hr1, hinv1, _, _, hfr1⟩ := q_reverse_spec fuel h q xs hi hf
  obtain ⟨h2, q2, hr2, hinv2, _, _, hfr2⟩ := q_reverse_spec fuel h1 q1 xs.reverse hinv1
    (by simpa using hf)
  rw [List.reverse_reverse] at hinv2
  have hq : q2 = q := Inv.queue_eq hi hinv2
  subst hq
  have hh : h2 = h := by
    funext b
    by_cases hb : b ∈ addrs xs
    · exact IsList.cell_eq hi.1 hinv2.1 b hb
    · have hb2 : b ∉ addrs xs.reverse := by
        simpa [addrs] using hb
      rw [hfr2 b hb2, hfr1 b hb]
  subst hh
  exact ⟨h1, q1, hr1, hinv1, hr2⟩

/-- C13: `q_reverse` is an involution. On a queue that satisfies the invariant, of any
length, two calls of `q_reverse` in a row return, and after them the cells are in their
original order from head to tail, `head`, `tail` and `size` are what they were, and so
is every cell of the heap. -/
theorem q_reverse_involution (fuel : Nat) (h : Heap) (q : queue_t)
    (xs : List (Nat × List Nat)) (hi : Inv h q xs) (hf : xs.length < fuel) :
    ∃ h1 q1 h2 q2, q_reverse fuel h (some q) = some (h1, some q1) ∧
      q_reverse fuel h1 (some q1) = some (h2, some q2) ∧
      IsList h2 q2.head xs ∧ Inv h2 q2 xs ∧
      q2.head = q.head ∧ q2.tail = q.tail ∧ q2.size = q.size ∧ q2 = q ∧ h2 = h := by
  obtain ⟨h1, q1, hr1, _, hr2⟩ := q_reverse_twice_spec fuel h q xs hi hf
  exact ⟨h1, q1, h, q, hr1, hr2, hi.1, hi, rfl, rfl, rfl, rfl, rfl⟩

/-- Witness for C13 on the example queue `"b", "a", "c"`. -/
theorem q_reverse_involution_witness :
    (Inv ex_heap ex_queue ex_cells ∧ ex_cells.length < 4) ∧
    ∃ h1 q1 h2 q2, q_reverse 4 ex_heap (some ex_queue) = some (h1, some q1) ∧
      q_reverse 4 h1 (some q1) = some (h2, some q2) ∧
      IsList h2 q2.head ex_cells ∧ Inv h2 q2 ex_cells ∧
      q2.head = ex_queue.head ∧ q2.tail = ex_queue.tail ∧ q2.size = ex_queue.size ∧
      q2 = ex_queue ∧ h2 = ex_heap :=
  ⟨⟨by decide, by decide⟩,
    q_reverse_involution 4 ex_heap ex_queue ex_cells (by decide) (by decide)⟩

/-! ## Sorting a sorted queue, and stability -/

theorem pairwise_of_chain_payloads {xs : List (Nat × List Nat)}
    (hc : List.Chain' (fun a b => strcmp a b ≤ 0) (payloads xs)) :
    List.Pairwise (fun x y => cell_le x y = true) xs := by
  have hp : List.Pairwise (fun a b => strcmp a b ≤ 0) (payloads xs) := by
    haveI : IsTrans (List Nat) (fun a b => strcmp a b ≤ 0) :=
      ⟨fun a b c hab hbc => strcmp_trans a b c hab hbc⟩
    exact List.chain'_iff_pairwise.1 hc
  rw [payloads, List.pairwise_map] at hp
  exact hp.imp (fun hab => (cell_le_iff _ _).2 hab)

/-- Effect of `q_sort` on a queue whose cells are in ascending order: nothing changes. -/
theorem q_sort_of_sorted (fuel : Nat) (h : Heap) (q : queue_t) (xs : List (Nat × List Nat))
    (hi : Inv h q xs) (hf : xs.length + 1 < fuel)
    (hs : List.Pairwise (fun x y => cell_le x y = true) xs) :
    q_sort fuel h (some q) = some (h, some q) := by
  obtain ⟨h1, q1, hr, hinv, _, hfr⟩ := q_sort_spec fuel h q xs hi hf
  rw [List.mergeSort_of_sorted hs] at hinv
  have hq : q1 = q := Inv.queue_eq hi hinv
  have hh : h1 = h := by
    funext b
    by_cases hb : b ∈ addrs xs
    · exact IsList.cell_eq hi.1 (hq ▸ hinv.1) b hb
    · exact hfr b hb
  rw [hr, hq, hh]

/-- C14: `q_sort` is idempotent. On a queue whose strings are in ascending order from head
to tail, `q_sort` returns and leaves the cells in the same order, and the heap and the
queue as they were; and on every queue a second `q_sort` after a first one returns and
changes neither the order of the cells nor the heap nor the queue. -/
theorem q_sort_idempotent (fuel : Nat) (h : Heap) (q : queue_t) (xs : List (Nat × List Nat))
    (hi : Inv h q xs) (hf : xs.length + 1 < fuel) :
    (List.Chain' (fun a b => strcmp a b ≤ 0) (payloads xs) →
      ∃ h1 q1, q_sort fuel h (some q) = some (h1, some q1) ∧ IsList h1 q1.head xs ∧
        Inv h1 q1 xs ∧ h1 = h ∧ q1 = q) ∧
    (∃ h1 q1 ys h2 q2, q_sort fuel h (some q) = some (h1, some q1) ∧ IsList h1 q1.head ys ∧
      q_sort fuel h1 (some q1) = some (h2, some q2) ∧ IsList h2 q2.head ys ∧
      h2 = h1 ∧ q2 = q1) := by
  constructor
  · intro hc
    have hr := q_sort_of_sorted fuel h q xs hi hf (pairwise_of_chain_payloads hc)
    exact ⟨h, q, hr, hi.1, hi, rfl, rfl⟩
  · obtain ⟨h1, q1, hr, hinv, _, _⟩ := q_sort_spec fuel h q xs hi hf
    have hr2 := q_sort_of_sorted fuel h1 q1 _ hinv (by rw [List.length_mergeSort]; exact hf)
      (List.sorted_mergeSort cell_le_trans cell_le_total xs)
    exact ⟨h1, q1, _, h1, q1, hr, hinv.1, hr2, hinv.1, rfl, rfl⟩

/-- Witness for C14 on the sorted queue `"a", "b", "c"`, with fuel 5. -/
theorem q_sort_idempotent_witness :
    (Inv sorted_heap ex_queue sorted_cells ∧ sorted_cells.length + 1 < 5 ∧
      List.Chain' (fun a b => strcmp a b ≤ 0) (payloads sorted_cells)) ∧
    ((List.Chain' (fun a b => strcmp a b ≤ 0) (payloads sorted_cells) →
      ∃ h1 q1, q_sort 5 sorted_heap (some ex_queue) = some (h1, some q1) ∧
        IsList h1 q1.head sorted_cells ∧ Inv h1 q1 sorted_cells ∧ h1 = sorted_heap ∧
        q1 = ex_queue) ∧
    (∃ h1 q1 ys h2 q2, q_sort 5 sorted_heap (some ex_queue) = some (h1, some q1) ∧
      IsList h1 q1.head ys ∧
      q_sort 5 h1 (some q1) = some (h2, some q2) ∧ IsList h2 q2.head ys ∧
      h2 = h1 ∧ q2 = q1)) :=
  ⟨⟨by decide, by decide, by simp [payloads, sorted_cells, strcmp]⟩,
    q_sort_idempotent 5 sorted_heap ex_queue sorted_cells (by decide) (by decide)⟩

/-- C19: `q_sort` is stable. When the cell `a` stands before the cell `b` in the queue and
their strings compare equal under `strcmp`, then `a` still stands before `b` after
`q_sort`; every cell occurs once in the sorted chain. -/
theorem q_sort_stable (fuel : Nat) (h : Heap) (q : queue_t) (xs : List (Nat × List Nat))
    (a b : Nat × List Nat) (hi : Inv h q xs) (hf : xs.length + 1 < fuel)
    (hab : List.Sublist [a, b] xs) (he : strcmp a.2 b.2 = 0) :
    ∃ h1 q1 ys, q_sort fuel h (some q) = some (h1, some q1) ∧ IsList h1 q1.head ys ∧
      ys.Perm xs ∧ (addrs ys).Nodup ∧ List.Sublist [a, b] ys := by
  obtain ⟨h1, q1, hr, hinv, _, _⟩ := q_sort_spec fuel h q xs hi hf
  refine ⟨h1, q1, _, hr, hinv.1, List.mergeSort_perm xs cell_le, hinv.1.nodup, ?_⟩
  exact List.pair_sublist_mergeSort cell_le_trans cell_le_total
    ((cell_le_iff a b).2 (by omega)) hab

/-- Witness for C19 on the queue `"a", "b", "a"`: the cell at the address 1 stays before
the cell at the address 3. -/
theorem q_sort_stable_witness :
    (Inv tie_heap ex_queue tie_cells ∧ tie_cells.length + 1 < 5 ∧
      List.Sublist [(1, [97]), (3, [97])] tie_cells ∧ strcmp [97] [97] = 0) ∧
    ∃ h1 q1 ys, q_sort 5 tie_heap (some ex_queue) = some (h1, some q1) ∧
      IsList h1 q1.head ys ∧ ys.Perm tie_cells ∧ (addrs ys).Nodup ∧
      List.Sublist [(1, [97]), (3, [97])] ys :=
  ⟨⟨by decide, by decide, by decide, by decide⟩,
    q_sort_stable 5 tie_heap ex_queue tie_cells (1, [97]) (3, [97]) (by decide) (by decide)
      (by decide) (by decide)⟩

/-! ## The split of `mergeSort` -/

/-- Function `mergeSort` on a chain of at least two cells: the split, the two recursive
calls and the merge. -/
theorem mergeSort_unfold (fuel : Nat) (h : Heap) (hd : Nat) (c : list_ele_t) (b : Nat)
    (hc : h hd = some c) (hn : c.next = some b) :
    mergeSort (fuel + 1) h (some hd) =
      match split_halves fuel h hd with
      | none => none
      | some (h1, l1, l2) =>
        match mergeSort fuel h1 l2 with
        | none => none
        | some (h2, l2) =>
          match mergeSort fuel h2 l1 with
          | none => none
          | some (h3, l1) => merge_loop fuel h3 none none l1 l2 := by
  simp only [mergeSort, split_halves, hc, hn]
  cases hs : split_loop fuel h (some b) (some hd) with
  | none => rfl
  | some r =>
    cases r with
    | none => rfl
    | some m =>
      cases hm : h m with
      | none => simp only [hm]
      | some cm => simp only [hm]

/-- Effect of the split on a chain of at least two cells: the first part, of
`(n + 1) / 2` cells, is left at `l2` and the second part, of `n / 2` cells, at `l1`. -/
theorem split_halves_spec (fuel : Nat) (h : Heap) (hd : Nat) (xs : List (Nat × List Nat))
    (hl : IsList h (some hd) xs) (hn : 2 ≤ xs.length) (hf : (xs.length - 1) / 2 < fuel) :
    ∃ h1 l1 l2, split_halves fuel h hd = some (h1, l1, l2) ∧
      IsList h1 l2 (xs.take ((xs.length + 1) / 2)) ∧
      IsList h1 l1 (xs.drop ((xs.length + 1) / 2)) ∧
      (∀ b, b ∉ addrs xs → h1 b = h b) := by
  match xs, hl, hn with
  | x :: y :: zs, hl, _ =>
    have hfull := hl
    obtain ⟨hp, n, hcell, hl2⟩ := hl
    have hn2 : n = some y.1 := hl2.1
    subst hn2
    have hhd : hd = x.1 := Option.some.inj hp
    subst hhd
    obtain ⟨r, hr, hres⟩ := split_loop_spec fuel h (some y.1) (some x.1) (y :: zs)
      (x :: y :: zs) hl2 hfull (by simp only [List.length_cons]; omega)
      (by simp only [List.length_cons] at hf ⊢; omega)
    cases hdrop : (x :: y :: zs).drop ((y :: zs).length / 2) with
    | nil =>
      have := congrArg List.length hdrop
      rw [List.length_drop] at this
      simp only [List.length_nil, List.length_cons] at this
      omega
    | cons xm B =>
      rw [hdrop] at hres
      have hsplit : x :: y :: zs = (x :: y :: zs).take ((y :: zs).length / 2) ++ xm :: B := by
        rw [← hdrop, List.take_append_drop]
      have hAlen : ((x :: y :: zs).take ((y :: zs).length / 2)).length
          = (y :: zs).length / 2 := by
        rw [List.length_take]
        simp only [List.length_cons]
        omega
      obtain ⟨htake, hdrop2⟩ := take_drop_succ_of_append hsplit
      rw [hAlen] at htake hdrop2
      have hhalf : ((x :: y :: zs).length + 1) / 2 = (y :: zs).length / 2 + 1 := by
        simp only [List.length_cons]; omega
      have hr2 : r = some xm.1 := hres.1
      subst hr2
      have hfull2 := hfull
      rw [hsplit] at hfull2
      obtain ⟨nn, hnn, hfirst, hsecond⟩ := IsList.cut hfull2
      rw [← htake] at hfirst
      refine ⟨h.store xm.1 { value := xm.2, next := none }, nn, some x.1, ?_, ?_, ?_, ?_⟩
      · simp only [split_halves, hcell, hr, hnn]
      · rw [hhalf]
        exact hfirst
      · rw [hhalf, hdrop2]
        exact hsecond
      · intro b hb
        have hb3 : b ≠ xm.1 := by
          intro e
          apply hb
          rw [hsplit, e]
          simp [addrs]
        rw [Heap.store_other h _ hb3]

/-- C20: on a chain of `n` cells with `2 ≤ n`, the split of `mergeSort` returns and cuts
the chain into a first part of exactly `(n + 1) / 2` cells (half of `n`, rounded up), left
at `l2`, and a second part of exactly `n / 2` cells, left at `l1`; the two parts in this
order make up the original chain, both are non-empty and strictly shorter than `n`, and
`mergeSort`, which recurses on the two parts, returns. -/
theorem split_halves_lengths (fuel : Nat) (h : Heap) (hd : Nat) (xs : List (Nat × List Nat))
    (hl : IsList h (some hd) xs) (hn : 2 ≤ xs.length) (hf : xs.length + 1 < fuel) :
    ∃ h1 l1 l2 A B, split_halves fuel h hd = some (h1, l1, l2) ∧
      IsList h1 l2 A ∧ IsList h1 l1 B ∧
      A.length = (xs.length + 1) / 2 ∧ B.length = xs.length / 2 ∧ A ++ B = xs ∧
      0 < A.length ∧ 0 < B.length ∧ A.length < xs.length ∧ B.length < xs.length ∧
      (∃ r, mergeSort fuel h (some hd) = some r) := by
  obtain ⟨h1, l1, l2, hr, hA, hB, _⟩ := split_halves_spec fuel h hd xs hl hn (by omega)
  have hlenA : (xs.take ((xs.length + 1) / 2)).length = (xs.length + 1) / 2 := by
    rw [List.length_take]
    omega
  have hlenB : (xs.drop ((xs.length + 1) / 2)).length = xs.length / 2 := by
    rw [List.length_drop]
    omega
  obtain ⟨h2, p2, hm, _, _⟩ := mergeSort_spec fuel h (some hd) xs hl hf
  refine ⟨h1, l1, l2, _, _, hr, hA, hB, hlenA, hlenB, List.take_append_drop _ _, ?_, ?_, ?_,
    ?_, ⟨_, hm⟩⟩
  · rw [hlenA]; omega
  · rw [hlenB]; omega
  · rw [hlenA]; omega
  · rw [hlenB]; omega

/-- Witness for C20 on the chain of the example queue `"b", "a", "c"`. -/
theorem split_halves_lengths_witness :
    (IsList ex_heap (some 1) ex_cells ∧ 2 ≤ ex_cells.length ∧ ex_cells.length + 1 < 5) ∧
    ∃ h1 l1 l2 A B, split_halves 5 ex_heap 1 = some (h1, l1, l2) ∧
      IsList h1 l2 A ∧ IsList h1 l1 B ∧
      A.length = (ex_cells.length + 1) / 2 ∧ B.length = ex_cells.length / 2 ∧
      A ++ B = ex_cells ∧
      0 < A.length ∧ 0 < B.length ∧ A.length < ex_cells.length ∧
      B.length < ex_cells.length ∧
      (∃ r, mergeSort 5 ex_heap (some 1) = some r) :=
  ⟨⟨by decide, by decide, by decide⟩,
    split_halves_lengths 5 ex_heap 1 ex_cells (by decide) (by decide) (by decide)⟩

/-! ## Ties in the merge -/

/-- C18, as the code has it: in the merge step of `mergeSort`, where `l2` is at the first
part of the split chain and `l1` at the second part, whenever the strings of the two front
cells compare equal the cell taken first into the output is the front cell of the first
part (the cell at `l2`), not the front cell of the second part. -/
theorem merge_tie_takes_first_part (fuel : Nat) (h : Heap) (l1 l2 : Option Nat)
    (x y : Nat × List Nat) (L1 L2 : List (Nat × List Nat))
    (hl1 : IsList h l1 (y :: L1)) (hl2 : IsList h l2 (x :: L2))
    (hd : ∀ b ∈ addrs (y :: L1), b ∉ addrs (x :: L2))
    (hf : (y :: L1).length + (x :: L2).length < fuel) (he : strcmp y.2 x.2 = 0) :
    ∃ h1, merge_loop fuel h none none l1 l2 = some (h1, some x.1) ∧
      IsList h1 (some x.1) (x :: List.merge L2 (y :: L1) cell_le) ∧
      l2 = some x.1 ∧ l1 = some y.1 ∧ x.1 ≠ y.1 := by
  obtain ⟨h1, head1, hr, hc, _, _, _⟩ := merge_loop_spec fuel h none none l1 l2 (y :: L1)
    (x :: L2) hl1 hl2 hd (fun t e => by simp at e) hf
  have hm : List.merge (x :: L2) (y :: L1) cell_le = x :: List.merge L2 (y :: L1) cell_le := by
    have hle : cell_le x y = true := cell_le_of_not_lt (by omega)
    simp only [List.merge, hle]
    simp
  have hc2 : IsList h1 head1 (x :: List.merge L2 (y :: L1) cell_le) := by
    rw [← hm]
    exact hc
  have hh : head1 = some x.1 := hc2.1
  subst hh
  refine ⟨h1, hr, hc2, hl2.1, hl1.1, ?_⟩
  intro e
  exact hd y.1 (mem_addrs_cons_self y L1) (e ▸ mem_addrs_cons_self x L2)

/-- Witness for C18 as the code has it: the two one-cell chains `"a"` at the addresses 1
(at `l2`) and 2 (at `l1`). -/
theorem merge_tie_takes_first_part_witness :
    (IsList (pair_heap.store 1 ⟨[97], none⟩) (some 2) ((2, [97]) :: []) ∧
      IsList (pair_heap.store 1 ⟨[97], none⟩) (some 1) ((1, [97]) :: []) ∧
      (∀ b ∈ addrs ((2, [97]) :: []), b ∉ addrs ((1, [97]) :: [])) ∧
      ((2, [97]) :: []).length + ((1, [97]) :: []).length < 4 ∧ strcmp [97] [97] = 0) ∧
    ∃ h1, merge_loop 4 (pair_heap.store 1 ⟨[97], none⟩) none none (some 2) (some 1)
        = some (h1, some 1) ∧
      IsList h1 (some 1) ((1, [97]) :: List.merge [] ((2, [97]) :: []) cell_le) ∧
      (some 1 : Option Nat) = some 1 ∧ (some 2 : Option Nat) = some 2 ∧ (1 : Nat) ≠ 2 :=
  ⟨⟨by decide, by decide, by decide, by decide, by decide⟩,
    merge_tie_takes_first_part 4 (pair_heap.store 1 ⟨[97], none⟩) (some 2) (some 1)
      (1, [97]) (2, [97]) [] [] (by decide) (by decide) (by decide) (by decide) (by decide)⟩

/-- C18, counterexample: on the chain of the two cells `"a"`, `"a"` at the addresses 1 and
2, the split leaves the first part (the cell 1) at `l2` and the second part (the cell 2) at
`l1`; the strings of the two front cells compare equal, and the merge takes the cell 1, the
front cell of the first part, first: the sorted chain starts at the cell 1, not at the
cell 2. -/
theorem merge_tie_counterexample :
    split_halves 4 pair_heap 1 = some (pair_heap.store 1 ⟨[97], none⟩, some 2, some 1) ∧
    IsList (pair_heap.store 1 ⟨[97], none⟩) (some 1) [(1, [97])] ∧
    IsList (pair_heap.store 1 ⟨[97], none⟩) (some 2) [(2, [97])] ∧
    strcmp [97] [97] = 0 ∧
    merge_loop 4 (pair_heap.store 1 ⟨[97], none⟩) none none (some 2) (some 1)
      = some ((pair_heap.store 1 ⟨[97], none⟩).store 1 ⟨[97], some 2⟩, some 1) ∧
    mergeSort 5 pair_heap (some 1)
      = some ((pair_heap.store 1 ⟨[97], none⟩).store 1 ⟨[97], some 2⟩, some 1) ∧
    IsList ((pair_heap.store 1 ⟨[97], none⟩).store 1 ⟨[97], some 2⟩) (some 1)
      [(1, [97]), (2, [97])] ∧
    ¬ ∃ h1, mergeSort 5 pair_heap (some 1) = some (h1, some 2) := by
  have hm : mergeSort 5 pair_heap (some 1)
      = some ((pair_heap.store 1 ⟨[97], none⟩).store 1 ⟨[97], some 2⟩, some 1) := rfl
  refine ⟨rfl, by decide, by decide, by decide, rfl, hm, by decide, ?_⟩
  rintro ⟨h1, hh⟩
  rw [hm] at hh
  have := congrArg (fun r => r.map Prod.snd) hh
  simp at this

/-! ## Sequences of insertions and removals -/

theorem size_t_of_int_of_size_t (n : Nat) :
    (n % 2 ^ 32 < 2 ^ 32 / 2 → size_t_of_int (int_of_size_t n) = n % 2 ^ 32) ∧
    (¬ n % 2 ^ 32 < 2 ^ 32 / 2 → 2 ^ 63 ≤ size_t_of_int (int_of_size_t n)) := by
  unfold int_of_size_t size_t_of_int SIZE_MOD INT_MOD
  constructor
  · intro hlt
    simp only [hlt, if_true]
    omega
  · intro hlt
    simp only [hlt, if_false]
    omega

/-- A request for the string that `malloc` can grant is not larger than the string
object, so the copy stays inside it. -/
theorem memcpy_of_alloc (s : List Nat) (hs : size_t_of_int (payload_len s) ≤ MALLOC_MAX) :
    ∃ v, memcpy_string s (size_t_of_int (payload_len s)) = some v := by
  have hle : size_t_of_int (payload_len s) ≤ strlen s + 1 := by
    unfold payload_len SIZE_MOD MALLOC_MAX at *
    have h1 : (1 * (strlen s + 1)) % 2 ^ 64 ≤ strlen s + 1 := by
      rw [Nat.one_mul]
      exact Nat.mod_le _ _
    have h2 : (1 * (strlen s + 1)) % 2 ^ 64 % 2 ^ 32 ≤ (1 * (strlen s + 1)) % 2 ^ 64 :=
      Nat.mod_le _ _
    obtain ⟨ha, hb⟩ := size_t_of_int_of_size_t ((1 * (strlen s + 1)) % 2 ^ 64)
    by_cases hlt : (1 * (strlen s + 1)) % 2 ^ 64 % 2 ^ 32 < 2 ^ 32 / 2
    · rw [ha hlt]
      omega
    · have := hb hlt
      omega
  refine ⟨s.take (size_t_of_int (payload_len s)), ?_⟩
  simp [memcpy_string, hle]

/-- Effect of one call with successful allocations on a queue that satisfies the
invariant: the call returns, the invariant holds after it, and `size` has grown by one for
an insertion and dropped by one for a removal that returned true. -/
theorem run_call_spec (h : Heap) (q : queue_t) (xs : List (Nat × List Nat)) (c : q_call)
    (hi : Inv h q xs) (hc : c.alloc_ok h) :
    ∃ b h1 q1 xs1, run_call h (some q) c = some (b, h1, some q1) ∧ Inv h1 q1 xs1 ∧
      q1.size + (if !c.is_insert && b then 1 else 0) =
        q.size + (if c.is_insert then 1 else 0) := by
  cases c with
  | insert_head s a =>
    obtain ⟨ha, hs⟩ := hc
    obtain ⟨v, hv⟩ := memcpy_of_alloc s hs
    obtain ⟨h1, q1, hr, hinv⟩ := q_insert_head_copy_inv h q xs s v a hi ha hv
    refine ⟨true, h1, q1, _, hr, hinv, ?_⟩
    have e1 := hinv.2.1
    have e2 := hi.2.1
    simp only [q_call.is_insert, List.length_cons] at *
    push_cast at e1
    simp
    omega
  | insert_tail s a =>
    obtain ⟨ha, hs⟩ := hc
    obtain ⟨v, hv⟩ := memcpy_of_alloc s hs
    obtain ⟨h1, q1, hr, hinv, hsz⟩ := q_insert_tail_copy h q xs s v a hi ha hv
    refine ⟨true, h1, q1, _, hr, hinv, ?_⟩
    simp only [q_call.is_insert]
    simp
    omega
  | remove_head sp n =>
    obtain ⟨b, h1, q1, sp1, hr, hinv, hb⟩ := q_remove_head_spec h q xs hi sp n
    refine ⟨b, h1, q1, _, by simp only [run_call, hr], hinv, ?_⟩
    have e1 := hinv.2.1
    have e2 := hi.2.1
    cases b with
    | true =>
      have hne : xs ≠ [] := hb.1 rfl
      cases xs with
      | nil => exact absurd rfl hne
      | cons x xs =>
        simp only [q_call.is_insert, List.tail_cons, List.length_cons] at *
        push_cast at e2
        simp
        omega
    | false =>
      have hnil : xs = [] := by
        by_contra hne
        have := hb.2 hne
        simp at this
      subst hnil
      simp only [q_call.is_insert, List.tail_nil] at *
      simp
      omega

theorem allocs_succeed_take (cs : List q_call) :
    ∀ (k : Nat) (h : Heap) (q : Option queue_t), allocs_succeed cs h q →
      allocs_succeed (cs.take k) h q := by
  induction cs with
  | nil => intro k h q hok; simpa using hok
  | cons c cs ih =>
    intro k h q hok
    cases k with
    | zero => simp [allocs_succeed]
    | succ k =>
      obtain ⟨hc, hrest⟩ := hok
      refine ⟨hc, ?_⟩
      cases hr : run_call h q c with
      | none => trivial
      | some r =>
        obtain ⟨b, h1, q1⟩ := r
        simp only [hr] at hrest
        exact ih k h1 q1 hrest

/-- Effect of a sequence of calls with successful allocations on a queue that satisfies
the invariant. -/
theorem run_calls_spec (cs : List q_call) :
    ∀ (st : run_state) (q : queue_t) (xs : List (Nat × List Nat)), st.queue = some q →
      Inv st.heap q xs → allocs_succeed cs st.heap st.queue →
      ∃ st1 q1 xs1, run_calls cs st = some st1 ∧ st1.queue = some q1 ∧
        Inv st1.heap q1 xs1 ∧
        q1.size + (st.inserts : Int) + (st1.removes : Int) =
          q.size + (st1.inserts : Int) + (st.removes : Int) ∧
        st1.inserts = st.inserts + cs.countP q_call.is_insert := by
  induction cs with
  | nil =>
    intro st q xs hq hi _
    exact ⟨st, q, xs, rfl, hq, hi, by omega, by simp⟩
  | cons c cs ih =>
    intro st q xs hq hi hok
    obtain ⟨hc, hrest⟩ := hok
    obtain ⟨b, h1, q1, xs1, hr, hinv, hsz⟩ := run_call_spec st.heap q xs c hi hc
    rw [hq] at hrest
    simp only [hr] at hrest
    obtain ⟨st2, q2, xs2, hr2, hq2, hinv2, hsz2, hcnt⟩ := ih
      { heap := h1, queue := some q1,
        inserts := st.inserts + (if c.is_insert then 1 else 0),
        removes := st.removes + (if !c.is_insert && b then 1 else 0) } q1 xs1 rfl hinv hrest
    refine ⟨st2, q2, xs2, ?_, hq2, hinv2, ?_, ?_⟩
    · simp only [run_calls, hq, hr]
      exact hr2
    · simp only at hsz2
      push_cast at hsz2
      split_ifs at hsz hsz2 <;> omega
    · rw [hcnt, List.countP_cons]
      simp only
      omega

/-- C11, as the code has it: for every sequence of `q_insert_head`, `q_insert_tail` and
`q_remove_head` calls on a new queue during which the count of cells (insertions minus
removals that returned true) stays below `2 ^ 31`, with the allocations succeeding at
every call (the address handed out for a cell is not allocated, and the request for a
string is one that `malloc` can grant), every inserted string with `strlen s + 1 < 2 ^ 31`
and every removal without a buffer or with a buffer of at least one byte, the run returns
and the size that `q_size` reports after it is the number of insertions minus the number
of removals that returned true; the same holds after every initial part of the sequence,
and the size reported is never negative. -/
theorem size_counts_calls (h0 : Heap) (cs : List q_call) (k : Nat)
    (hok : allocs_succeed cs h0 (q_new true)) (hwf : ∀ c ∈ cs, c.well_formed)
    (hn : sizes_fit cs h0) :
    (∃ st z, run_calls cs ⟨h0, q_new true, 0, 0⟩ = some st ∧ q_size st.queue = some z ∧
      z = (st.inserts : Int) - (st.removes : Int) ∧ 0 ≤ z ∧
      st.inserts = cs.countP q_call.is_insert) ∧
    (∃ st z, run_calls (cs.take k) ⟨h0, q_new true, 0, 0⟩ = some st ∧
      q_size st.queue = some z ∧
      z = (st.inserts : Int) - (st.removes : Int) ∧ 0 ≤ z ∧
      st.inserts = (cs.take k).countP q_call.is_insert) := by
  have _ := hwf
  have hinit : Inv h0 ⟨none, none, 0⟩ [] := ⟨rfl, rfl, rfl⟩
  have hfit : ∀ j st, run_calls (cs.take j) ⟨h0, q_new true, 0, 0⟩ = some st →
      st.inserts < st.removes + 2 ^ 31 := by
    intro j st hst
    by_cases hj : j ≤ cs.length
    · have h1 := hn j hj
      rw [hst] at h1
      exact h1
    · have h1 := hn cs.length (Nat.le_refl _)
      rw [List.take_of_length_le (by omega)] at hst
      rw [List.take_of_length_le (Nat.le_refl _), hst] at h1
      exact h1
  have key : ∀ ds : List q_call, allocs_succeed ds h0 (q_new true) →
      (∀ st, run_calls ds ⟨h0, q_new true, 0, 0⟩ = some st →
        st.inserts < st.removes + 2 ^ 31) →
      ∃ st z, run_calls ds ⟨h0, q_new true, 0, 0⟩ = some st ∧ q_size st.queue = some z ∧
        z = (st.inserts : Int) - (st.removes : Int) ∧ 0 ≤ z ∧
        st.inserts = ds.countP q_call.is_insert := by
    intro ds hds hcount
    obtain ⟨st1, q1, xs1, hr, hq1, hinv, hsz, hcnt⟩ :=
      run_calls_spec ds ⟨h0, q_new true, 0, 0⟩ ⟨none, none, 0⟩ [] rfl hinit hds
    have hcnt2 : st1.inserts = ds.countP q_call.is_insert := by simpa using hcnt
    have hnonneg : 0 ≤ q1.size := by
      rw [hinv.2.1]
      exact Int.natCast_nonneg _
    have hval : q1.size = (st1.inserts : Int) - (st1.removes : Int) := by
      simp only at hsz
      push_cast at hsz
      omega
    have hlt : q1.size < 2 ^ 31 := by
      have h2 := hcount st1 hr
      rw [hval]
      omega
    refine ⟨st1, q1.size, hr, ?_, hval, hnonneg, hcnt2⟩
    rw [hq1]
    exact q_size_in_range q1 hnonneg hlt
  refine ⟨key cs hok ?_, key (cs.take k) (allocs_succeed_take cs k h0 (q_new true) hok)
    (hfit k)⟩
  intro st hst
  rw [← List.take_of_length_le (Nat.le_refl cs.length)] at hst
  exact hfit cs.length st hst

/-- Witness for C11, as the code has it, on the example sequence of seven calls and its
first five calls. -/
theorem size_counts_calls_witness :
    (allocs_succeed ex_calls emptyHeap (q_new true) ∧ (∀ c ∈ ex_calls, c.well_formed) ∧
      sizes_fit ex_calls emptyHeap) ∧
    ((∃ st z, run_calls ex_calls ⟨emptyHeap, q_new true, 0, 0⟩ = some st ∧
      q_size st.queue = some z ∧
      z = (st.inserts : Int) - (st.removes : Int) ∧ 0 ≤ z ∧
      st.inserts = ex_calls.countP q_call.is_insert) ∧
    (∃ st z, run_calls (ex_calls.take 5) ⟨emptyHeap, q_new true, 0, 0⟩ = some st ∧
      q_size st.queue = some z ∧
      z = (st.inserts : Int) - (st.removes : Int) ∧ 0 ≤ z ∧
      st.inserts = (ex_calls.take 5).countP q_call.is_insert)) :=
  ⟨⟨by decide, by decide, by decide⟩,
    size_counts_calls emptyHeap ex_calls 5 (by decide) (by decide) (by decide)⟩

/-- Scenario: on the example sequence the run ends on the empty queue after three
insertions and three removals that returned true. -/
theorem scenario_calls : (run_calls ex_calls ⟨emptyHeap, q_new true, 0, 0⟩).map
    (fun st => (st.queue, st.inserts, st.removes)) = some (some ⟨none, none, 0⟩, 3, 3) := by
  decide

/-! ## Removing every cell -/

/-- Effect of `length xs + 1` calls of `q_remove_head` in a row on a queue that holds the
cells `xs`. -/
theorem remove_n_spec (xs : List (Nat × List Nat)) :
    ∀ (h : Heap) (q : queue_t) (sp : Option (Nat → Nat)) (bufsize : Nat), Inv h q xs →
      ∃ rs h1 q1, remove_n (xs.length + 1) h (some q) sp bufsize = some (rs, h1, some q1) ∧
        rs.map Prod.fst = List.replicate xs.length true ++ [false] ∧
        Inv h1 q1 [] ∧
        (∀ m, sp = some m → bufsize < SIZE_MOD → (∀ x ∈ xs, x.2.length < bufsize) →
          List.Forall₂ (fun (r : Bool × Option (Nat → Nat)) (x : Nat × List Nat) =>
            ∃ m1, r.2 = some m1 ∧ (List.range (x.2.length + 1)).map m1 = x.2 ++ [0])
            (rs.take xs.length) xs) := by
  induction xs with
  | nil =>
    intro h q sp bufsize hi
    have hp : q.head = none := hi.1
    refine ⟨[(false, sp)], h, q, ?_, rfl, hi, ?_⟩
    · simp [remove_n, q_remove_head, hp]
    · intro m _ _ _
      simp
  | cons x xs ih =>
    intro h q sp bufsize hi
    obtain ⟨b, h1, q1, sp1, hr, hinv, hb⟩ := q_remove_head_spec h q (x :: xs) hi sp bufsize
    obtain ⟨n, _, _, hr2⟩ := q_remove_head_cons hi.1 sp bufsize
    have hbt : b = true := hb.2 (by simp)
    subst hbt
    have hsp1 : sp1 = sp.map (fun m => copy_out m x.2 bufsize) := by
      rw [hr] at hr2
      have := Option.some.inj hr2
      simp only [Prod.mk.injEq] at this
      exact this.2.2.2
    rw [List.tail_cons] at hinv
    obtain ⟨rs, h2, q2, hrn, hbs, hinv2, hyield⟩ := ih h1 q1 sp1 bufsize hinv
    refine ⟨(true, sp1) :: rs, h2, q2, ?_, ?_, hinv2, ?_⟩
    · have hstep : remove_n ((x :: xs).length + 1) h (some q) sp bufsize =
          match q_remove_head h (some q) sp bufsize with
          | none => none
          | some (b, h1, q1, sp1) =>
            match remove_n (xs.length + 1) h1 q1 sp1 bufsize with
            | none => none
            | some (rs, h2, q2) => some ((b, sp1) :: rs, h2, q2) := rfl
      rw [hstep, hr]
      simp only [hrn]
    · simp only [List.map_cons, hbs, List.length_cons, List.replicate_succ, List.cons_append]
    · intro m hm hbuf hcap
      subst hm
      simp only [List.length_cons, List.take_succ_cons]
      refine List.Forall₂.cons ?_ ?_
      · refine ⟨copy_out m x.2 bufsize, by simp [hsp1], ?_⟩
        have hx : x.2.length < bufsize := hcap x (List.mem_cons_self _ _)
        have hk : min (bufsize - 1) x.2.length = x.2.length := by omega
        have := copy_out_bytes m x.2 bufsize (by omega) hbuf
        rw [hk, List.take_length] at this
        exact this
      · exact hyield (copy_out m x.2 bufsize) (by simp [hsp1]) hbuf
          (fun y hy => hcap y (List.mem_cons_of_mem _ hy))

/-- C15: on a queue of `n` cells that satisfies the invariant, `n + 1` calls of
`q_remove_head` in a row, made without a buffer or with a buffer of at least one byte,
return; the first `n` return true and the last one returns false, with the queue empty
(`head` is `NULL` and `size` is 0) at the end. With an output buffer that is large enough
for every string, the strings copied out by the first `n` calls are the strings of the
queue in their order from head to tail. -/
theorem remove_all_then_fail (h : Heap) (q : queue_t) (xs : List (Nat × List Nat))
    (m : Nat → Nat) (bufsize : Nat) (hi : Inv h q xs) (hbuf : bufsize < SIZE_MOD)
    (hcap : ∀ x ∈ xs, x.2.length < bufsize) :
    (∀ (sp : Option (Nat → Nat)) (n : Nat), sp = none ∨ 1 ≤ n → ∃ rs h1 q1,
      remove_n (xs.length + 1) h (some q) sp n = some (rs, h1, some q1) ∧
        rs.map Prod.fst = List.replicate xs.length true ++ [false] ∧
        Inv h1 q1 [] ∧ q1.head = none ∧ q1.size = 0) ∧
    (∃ rs h1 q1, remove_n (xs.length + 1) h (some q) (some m) bufsize
        = some (rs, h1, some q1) ∧
      rs.map Prod.fst = List.replicate xs.length true ++ [false] ∧
      List.Forall₂ (fun (r : Bool × Option (Nat → Nat)) (x : Nat × List Nat) =>
        ∃ m1, r.2 = some m1 ∧ (List.range (x.2.length + 1)).map m1 = x.2 ++ [0])
        (rs.take xs.length) xs) := by
  constructor
  · intro sp n _
    obtain ⟨rs, h1, q1, hr, hbs, hinv, _⟩ := remove_n_spec xs h q sp n hi
    exact ⟨rs, h1, q1, hr, hbs, hinv, hinv.1, by simpa using hinv.2.1⟩
  · obtain ⟨rs, h1, q1, hr, hbs, _, hy⟩ := remove_n_spec xs h q (some m) bufsize hi
    exact ⟨rs, h1, q1, hr, hbs, hy m rfl hbuf hcap⟩

/-- Witness for C15 on the example queue `"b", "a", "c"` with a buffer of capacity 8. -/
theorem remove_all_then_fail_witness :
    (Inv ex_heap ex_queue ex_cells ∧ 8 < SIZE_MOD ∧ ∀ x ∈ ex_cells, x.2.length < 8) ∧
    ((∀ (sp : Option (Nat → Nat)) (n : Nat), sp = none ∨ 1 ≤ n → ∃ rs h1 q1,
      remove_n (ex_cells.length + 1) ex_heap (some ex_queue) sp n = some (rs, h1, some q1) ∧
        rs.map Prod.fst = List.replicate ex_cells.length true ++ [false] ∧
        Inv h1 q1 [] ∧ q1.head = none ∧ q1.size = 0) ∧
    (∃ rs h1 q1, remove_n (ex_cells.length + 1) ex_heap (some ex_queue) (some (fun _ => 7)) 8
        = some (rs, h1, some q1) ∧
      rs.map Prod.fst = List.replicate ex_cells.length true ++ [false] ∧
      List.Forall₂ (fun (r : Bool × Option (Nat → Nat)) (x : Nat × List Nat) =>
        ∃ m1, r.2 = some m1 ∧ (List.range (x.2.length + 1)).map m1 = x.2 ++ [0])
        (rs.take ex_cells.length) ex_cells)) :=
  ⟨⟨by decide, by decide, by decide⟩,
    remove_all_then_fail ex_heap ex_queue ex_cells (fun _ => 7) 8 (by decide) (by decide)
      (by decide)⟩

/-- Every call of `many_inserts` is well formed. -/
theorem many_inserts_well_formed (n : Nat) :
    ∀ (a : Nat) (c : q_call), c ∈ many_inserts a n → c.well_formed := by
  induction n with
  | zero =>
    intro a c hc
    simp [many_inserts] at hc
  | succ n ih =>
    intro a c hc
    rw [many_inserts, List.mem_cons] at hc
    rcases hc with hc | hc
    · subst hc
      show strlen [] + 1 < 2 ^ 31
      decide
    · exact ih (a + 1) c hc

/-- Effect of `n` insertions of the empty string at fresh addresses on a queue that
satisfies the invariant: the allocations succeed, the run returns, `size` has grown by
`n`, and so has the number of insertions. -/
theorem many_inserts_spec (n : Nat) :
    ∀ (a : Nat) (st : run_state) (q : queue_t) (xs : List (Nat × List Nat)),
      st.queue = some q → Inv st.heap q xs → (∀ b, a ≤ b → st.heap b = none) →
      allocs_succeed (many_inserts a n) st.heap st.queue ∧
      ∃ st1 q1 xs1, run_calls (many_inserts a n) st = some st1 ∧ st1.queue = some q1 ∧
        Inv st1.heap q1 xs1 ∧ q1.size = q.size + (n : Int) ∧
        st1.inserts = st.inserts + n ∧ st1.removes = st.removes := by
  induction n with
  | zero =>
    intro a st q xs hq hi _
    refine ⟨trivial, st, q, xs, rfl, hq, hi, ?_, rfl, rfl⟩
    simp
  | succ n ih =>
    intro a st q xs hq hi hfree
    have hv : memcpy_string [] (size_t_of_int (payload_len [])) = some [] :=
      memcpy_short [] (by decide)
    have hmax : size_t_of_int (payload_len []) ≤ MALLOC_MAX := by
      rw [payload_len_short [] (by decide)]
      decide
    obtain ⟨q1, hr, _, hs1, _, _⟩ :=
      q_insert_head_copy st.heap q xs [] [] a hi.1 (hfree a (Nat.le_refl a)) hv
    obtain ⟨h2, q2, hr2, hinv2⟩ :=
      q_insert_head_copy_inv st.heap q xs [] [] a hi (hfree a (Nat.le_refl a)) hv
    rw [hr] at hr2
    have e1 : st.heap.store a { value := [], next := q.head } = h2 := by
      injection hr2 with e
      injection e with _ e
      injection e
    have e2 : q1 = q2 := by
      injection hr2 with e
      injection e with _ e
      injection e with _ e
      injection e
    subst e1
    subst e2
    have hrc : run_call st.heap st.queue (q_call.insert_head [] a) =
        some (true, st.heap.store a { value := [], next := q.head }, some q1) := by
      rw [hq]
      exact hr
    have hfree1 : ∀ b, a + 1 ≤ b →
        (st.heap.store a { value := [], next := q.head }) b = none := by
      intro b hb
      rw [Heap.store_other _ _ (by omega)]
      exact hfree b (by omega)
    obtain ⟨hok, st3, q3, xs3, hr3, hq3, hinv3, hsz3, hin3, hrem3⟩ := ih (a + 1)
      { heap := st.heap.store a { value := [], next := q.head }, queue := some q1,
        inserts := st.inserts + 1, removes := st.removes } q1 ((a, []) :: xs) rfl hinv2 hfree1
    refine ⟨?_, st3, q3, xs3, ?_, hq3, hinv3, ?_, ?_, hrem3⟩
    · show (q_call.insert_head [] a).alloc_ok st.heap ∧ _
      refine ⟨⟨hfree a (Nat.le_refl a), hmax⟩, ?_⟩
      rw [hrc]
      exact hok
    · show (match run_call st.heap st.queue (q_call.insert_head [] a) with
        | none => none
        | some (b, h1, q1) => run_calls (many_inserts (a + 1) n)
            { heap := h1, queue := q1,
              inserts := st.inserts + (if (q_call.insert_head [] a).is_insert then 1 else 0),
              removes := st.removes +
                (if !(q_call.insert_head [] a).is_insert && b then 1 else 0) }) = some st3
      rw [hrc]
      exact hr3
    · rw [hsz3, hs1]
      push_cast
      omega
    · rw [hin3]
      show st.inserts + 1 + n = st.inserts + (n + 1)
      omega

/-- After `2 ^ 31` or more insertions of the empty string into a new queue, with every
allocation successful, `size` is the number of insertions and `q_size` cannot report it. -/
theorem many_inserts_overflow (n : Nat) (hn : 2147483648 ≤ n) :
    allocs_succeed (many_inserts 0 n) emptyHeap (q_new true) ∧
    (∀ c ∈ many_inserts 0 n, c.well_formed) ∧
    ∃ st q1, run_calls (many_inserts 0 n) ⟨emptyHeap, q_new true, 0, 0⟩ = some st ∧
      st.inserts = n ∧ st.removes = 0 ∧ st.queue = some q1 ∧ q1.size = (n : Int) ∧
      q_size st.queue = none := by
  obtain ⟨hok, st1, q1, xs1, hr, hq1, _, hsz, hin, hrem⟩ :=
    many_inserts_spec n 0 ⟨emptyHeap, q_new true, 0, 0⟩ ⟨none, none, 0⟩ [] rfl
      ⟨rfl, rfl, rfl⟩ (fun _ _ => rfl)
  have hsz1 : q1.size = (n : Int) := by
    rw [hsz]
    show (0 : Int) + (n : Int) = (n : Int)
    omega
  refine ⟨hok, many_inserts_well_formed n 0, st1, q1, hr, ?_, hrem, hq1, hsz1, ?_⟩
  · rw [hin]
    show 0 + n = n
    omega
  · rw [hq1]
    exact q_size_out_of_range q1 (by rw [hsz1]; omega)

/-- Counterexample to C11 as stated: `2 ^ 31` calls `q_insert_head(q, "")` on a new queue,
every allocation successful. The run returns with `2 ^ 31` insertions and no removal, the
field `size` holds `2 ^ 31`, and `q_size`, whose result is an `int`, does not report that
number. -/
theorem size_counts_calls_counterexample :
    allocs_succeed (many_inserts 0 2147483648) emptyHeap (q_new true) ∧
    (∀ c ∈ many_inserts 0 2147483648, c.well_formed) ∧
    ∃ st q1, run_calls (many_inserts 0 2147483648) ⟨emptyHeap, q_new true, 0, 0⟩ = some st ∧
      st.inserts = 2147483648 ∧ st.removes = 0 ∧ st.queue = some q1 ∧
      q1.size = ((2147483648 : Nat) : Int) ∧ q_size st.queue = none :=
  many_inserts_overflow 2147483648 (Nat.le_refl 2147483648)

end Queue
